import Mathlib

/-!
# Verification of the Quadrillion puzzle solver

A shallow embedding of `main.cpp` (solver for the Quadrillion puzzle):
the cell-value encoding, piece-definition grids with their rotation /
flip / normalization operations, the orientation generator
(`solver::Initialize`) and the explicit-stack depth-first search
(`solver::Solve`), together with theorems about them.

Machine integers of the C++ are modelled as `Nat` (with explicit
wrap-around where the width matters) and signed coordinate arithmetic
as `Int`.  Fallible paths (the `assert` in `Solve`) are modelled with
`Option`.
-/

namespace Quadrillion

/-! ## Cell values

The C++ `enum cell_value : u8` assigns `Empty = 0`, `Invalid = 1`,
`Blocked = 2`, `Piece01 = 3`, …, `Piece12 = 14`.  We keep the numeric
codes, since `CellValueToPieceIndex` operates on them bitwise. -/

def cellEmpty : Nat := 0
def cellInvalid : Nat := 1
def cellBlocked : Nat := 2

/-- `IsPiece`: `CellValue >= Piece01 && CellValue <= Piece12`. -/
def IsPiece (v : Nat) : Bool := decide (3 ≤ v) && decide (v ≤ 14)

/-- `CellValueToPieceIndex`: `(s32)(CellValue & 0b00001111)`.
Note this returns the raw enum code masked to 4 bits: for
`Piece01`..`Piece12` (codes 3..14) it yields 3..14, not 0..11. -/
def CellValueToPieceIndex (v : Nat) : Nat := v &&& 15

/-- `PieceIndexToCellValue`: `Piece01 + PieceIdx`. -/
def PieceIndexToCellValue (i : Nat) : Nat := 3 + i

/-! ## Piece definitions (4×4 occupancy grids)

`piece_definition` holds `u8 Balls[4][4]`; every read of a ball is a
truth test and input balls are the bits 0/1, so the grid is modelled
as a `Bool`-valued function on `Fin 4 × Fin 4`. -/

abbrev PieceDef := Fin 4 → Fin 4 → Bool

/-- Row-major list of the sixteen grid coordinates, in the iteration
order of the C++ double loops (`RowIdx` outer, `ColIdx` inner). -/
def gridIdx : List (Fin 4 × Fin 4) :=
  (List.finRange 4).flatMap fun r => (List.finRange 4).map fun c => (r, c)

/-- `Rotate` (clockwise by 90°): `To[c][3-r] = From[r][c]`, i.e. the
target cell `(r', c')` receives `From[3-c'][r']`. -/
def Rotate (D : PieceDef) : PieceDef := fun r' c' => D c'.rev r'

/-- `Flip` (vertically): `To[3-r][c] = From[r][c]`, i.e. the target
cell `(r', c')` receives `From[3-r'][c']`. -/
def Flip (D : PieceDef) : PieceDef := fun r' c' => D r'.rev c'

/-- The first pass of `PushUpAndLeft`: one row-major sweep over the
grid keeping, for the occupied cells seen so far, the minimum row
index and minimum column index (both initialized to `MAX_PIECE_SIZE-1
= 3`; the C++ updates each accumulator with `<=` comparisons). -/
def minStep (D : PieceDef) (acc : Nat × Nat) (rc : Fin 4 × Fin 4) : Nat × Nat :=
  if D rc.1 rc.2 then
    ((if rc.1.val ≤ acc.1 then rc.1.val else acc.1),
     (if rc.2.val ≤ acc.2 then rc.2.val else acc.2))
  else acc

def minRowCol (D : PieceDef) : Nat × Nat := gridIdx.foldl (minStep D) (3, 3)

/-- `PushUpAndLeft`: shift every cell up by `minRow` and left by
`minCol`, clearing what falls outside the shifted footprint.

The C++ performs the shift in place with ascending loops; since every
write target `(r-minRow, c-minCol)` is read (if at all) only at the
strictly later iteration `(r, c)` — or is the very cell being read
when `minRow = minCol = 0` — the in-place loops compute exactly this
functional shift, and the two clearing loops zero precisely the cells
the shift loop did not write. -/
def PushUpAndLeft (D : PieceDef) : PieceDef := fun r c =>
  if h : r.val + (minRowCol D).1 < 4 ∧ c.val + (minRowCol D).2 < 4 then
    D ⟨r.val + (minRowCol D).1, h.1⟩ ⟨c.val + (minRowCol D).2, h.2⟩
  else false

/-- Flatten a grid to its sixteen bits in row-major order. -/
def toCellList (D : PieceDef) : List Bool := gridIdx.map fun rc => D rc.1 rc.2

/-- MSB-first binary accumulation: `Packed <<= 1; Packed |= ball`.
(Since the shifted value has lowest bit zero, the bitwise or is the
same as addition of the ball bit.) -/
def packedList (l : List Bool) : Nat := l.foldl (fun p b => 2 * p + b.toNat) 0

/-- `ComputePackedRepresentation`: the row-major bits of the grid
packed into one scalar. -/
def ComputePackedRepresentation (D : PieceDef) : Nat := packedList (toCellList D)

/-! ## Orientation generation (`solver::Initialize`) -/

/-- The eight raw variants in generation order: the original, its
three successive rotations, the vertical flip of the original, and
its three successive rotations. -/
def variants (D : PieceDef) : List PieceDef :=
  [D, Rotate D, Rotate (Rotate D), Rotate (Rotate (Rotate D)),
   Flip D, Rotate (Flip D), Rotate (Rotate (Flip D)), Rotate (Rotate (Rotate (Flip D)))]

/-- All eight variants, each normalized by `PushUpAndLeft` (the C++
normalizes after generating all eight). -/
def normVariants (D : PieceDef) : List PieceDef := (variants D).map PushUpAndLeft

/-- One step of the deduplication loop: keep the next orientation only
if no previously kept orientation has the same packed representation. -/
def dedupStep (acc : List PieceDef) (D : PieceDef) : List PieceDef :=
  if acc.any fun E => ComputePackedRepresentation E == ComputePackedRepresentation D then
    acc
  else acc ++ [D]

/-- The unique orientations of a piece, in generation order with
duplicates (by packed representation) removed. -/
def uniqueOrientations (D : PieceDef) : List PieceDef :=
  (normVariants D).foldl dedupStep []

/-- Convert a normalized orientation grid into the ball-offset list:
scan row-major and record `(RowIdx, ColIdx)` of every occupied cell. -/
def ballList (D : PieceDef) : List (Nat × Nat) :=
  (gridIdx.filter fun rc => D rc.1 rc.2).map fun rc => (rc.1.val, rc.2.val)

/-- Number of occupied cells of a grid. -/
def ballCount (D : PieceDef) : Nat := (ballList D).length

/-- `search_piece`: the ordered unique orientations (as ball-offset
lists) plus the single `NumBalls` field. -/
structure SearchPiece where
  Orientations : List (List (Nat × Nat))
  NumBalls : Nat
deriving DecidableEq

/-- The conversion loop of `Initialize` for one piece: `NumBalls` is
reset to 0 at the start of each orientation and recounted, so the
stored value is the ball count of the *last* unique orientation.
(The orientation list is never empty — variant 0 is always kept — so
the `getLastD` default is never consulted.) -/
def mkSearchPiece (D : PieceDef) : SearchPiece :=
  let os := uniqueOrientations D
  { Orientations := os.map ballList
    NumBalls := ballCount (os.getLastD fun _ _ => false) }

/-- `solver::Initialize`: build the search representation of every
piece of the inventory. -/
def Initialize (Pieces : List PieceDef) : List SearchPiece :=
  Pieces.map mkSearchPiece

/-- Modelled from the spec: "unique-orientation order is exactly this
generation order with duplicates removed", where two orientations are
equal iff their normalized grids are identical.  This is the
spec-level deduplication the code's packed-signature loop is compared
against. -/
def dedupKeepFirst (l : List PieceDef) : List PieceDef :=
  l.foldl (fun acc x => if x ∈ acc then acc else acc ++ [x]) []

/-! ## Boards

`struct board` is `cell_value Cells[16][16]`, modelled as a list of
sixteen rows of sixteen cell values.  All in-bounds accesses of the
C++ stay within 16×16, so the `getD` defaults are never consulted on
the paths the program takes. -/

abbrev Board := List (List Nat)

def getCell (b : Board) (r c : Nat) : Nat := (b.getD r []).getD c cellInvalid

def setCell (b : Board) (r c v : Nat) : Board := b.set r ((b.getD r []).set c v)

/-- Row-major list of the 16×16 physical cell coordinates. -/
def boardIdx : List (Nat × Nat) :=
  (List.range 16).flatMap fun r => (List.range 16).map fun c => (r, c)

/-- The pre-computed `InputBoardEmptyCells`: the row-major list of
cells of the input board that hold `Empty`. -/
def emptyCellsOf (b : Board) : List (Nat × Nat) :=
  boardIdx.filter fun rc => getCell b rc.1 rc.2 == cellEmpty

/-! ## Search states -/

/-- `search_state`: a board snapshot, the 12-bit remaining-piece
bitfield (`u16 RemainingPieceBitFlags : 12`) and the fill cursor
(`u8 EmptyCellIdx`; on every path of the program the cursor is
incremented at most once per placed piece, hence stays below 13 and
never wraps, so it is modelled as a plain `Nat`). -/
structure SearchState where
  board : Board
  RemainingPieceBitFlags : Nat
  EmptyCellIdx : Nat
deriving DecidableEq

/-- The loop `for PieceIdx < 12: flags |= 1u << PieceIdx`. -/
def allPiecesFlags : Nat := (List.range 12).foldl (fun f i => f ||| (1 <<< i)) 0

/-- The 12-bit bitfield assignment `flags &= ~(1u << i)`: the
complement of `1u << i` in a `u32` is `(2^32 - 1) ^^^ (1 <<< i)`, and
storing into the 12-bit field truncates to the low 12 bits. -/
def clearPieceBit (flags i : Nat) : Nat :=
  (flags &&& ((2 ^ 32 - 1) ^^^ (1 <<< i))) % 4096

/-- The remaining-piece setup scan: over the logical extents (rows
outer, columns inner), clear the bit `CellValueToPieceIndex v` for
every cell value `v` with `IsPiece v`. -/
def initialFlags (b : Board) (NumRows NumCols : Nat) : Nat :=
  ((List.range NumRows).flatMap fun r => (List.range NumCols).map fun c => (r, c)).foldl
    (fun flags rc =>
      let v := getCell b rc.1 rc.2
      if IsPiece v then clearPieceBit flags (CellValueToPieceIndex v) else flags)
    allPiecesFlags

/-- The initial search state: the input board, the computed remaining
set, fill cursor 0. -/
def initialState (b : Board) (NumRows NumCols : Nat) : SearchState :=
  ⟨b, initialFlags b NumRows NumCols, 0⟩

/-- The `RemaningPieceIdxs` scan: indices `0 ≤ i < 12` whose bit is
set, ascending. -/
def remainingPieces (flags : Nat) : List Nat :=
  (List.range 12).filter fun i => (flags >>> i) &&& 1 == 1

/-- The target-cell scan: walk the precomputed empty-cell list from
the state's cursor until a cell that is still `Empty` on this state's
board; return its list index and coordinates. -/
def scanFrom (b : Board) : List (Nat × Nat) → Nat → Option (Nat × Nat × Nat)
  | [], _ => none
  | rc :: rest, idx =>
    if getCell b rc.1 rc.2 == cellEmpty then some (idx, rc.1, rc.2)
    else scanFrom b rest (idx + 1)

def scanTarget (b : Board) (emptyCells : List (Nat × Nat)) (cursor : Nat) :
    Option (Nat × Nat × Nat) :=
  scanFrom b (emptyCells.drop cursor) cursor

/-! ## Placement attempts

Coordinates inside the placement loops are signed (`s32`): the anchor
offset `-Orientation.Balls[PlacedBallIdx]` can be negative. -/

/-- Absolute board coordinates of one ball:
`target + (-anchor) + ball`. -/
def ballAbs (tR tC : Int) (anchor ball : Nat × Nat) : Int × Int :=
  (tR - (anchor.1 : Int) + (ball.1 : Int), tC - (anchor.2 : Int) + (ball.2 : Int))

/-- The per-ball validity test: in `[0,NumRows)×[0,NumCols)` and still
`Empty`.  (The C++ `&&` short-circuits, so the board is only read at
valid coordinates; the `toNat` casts are therefore exact.) -/
def ballOk (b : Board) (NumRows NumCols : Nat) (p : Int × Int) : Bool :=
  decide (0 ≤ p.1) && decide (p.1 < (NumRows : Int)) &&
  decide (0 ≤ p.2) && decide (p.2 < (NumCols : Int)) &&
  (getCell b p.1.toNat p.2.toNat == cellEmpty)

/-- The ball list the test loop walks: indices `0 ≤ k < NumBalls` of
the orientation's ball array.  (An out-of-range read of the C++ array
cannot occur when `NumBalls` equals the orientation's length, which
`Initialize` guarantees; the `getD` default mirrors the array read.) -/
def testBalls (o : List (Nat × Nat)) (n : Nat) : List (Nat × Nat) :=
  (List.range n).map fun k => o.getD k (0, 0)

/-- The validity loop with its short-circuit: returns `CanPlace` plus
the number of ball tests executed (the counter is bumped before each
test, so a failing ball is counted). -/
def canPlaceAux (b : Board) (NumRows NumCols : Nat) (tR tC : Int) (anchor : Nat × Nat) :
    List (Nat × Nat) → Bool × Nat
  | [] => (true, 0)
  | ball :: rest =>
    if ballOk b NumRows NumCols (ballAbs tR tC anchor ball) then
      let p := canPlaceAux b NumRows NumCols tR tC anchor rest
      (p.1, p.2 + 1)
    else (false, 1)

/-- Write every ball's cell (`k < NumBalls`) with the piece's cell
value. -/
def placeBalls (b : Board) (tR tC : Int) (anchor : Nat × Nat) (o : List (Nat × Nat))
    (n v : Nat) : Board :=
  (List.range n).foldl
    (fun bb k =>
      let p := ballAbs tR tC anchor (o.getD k (0, 0))
      setCell bb p.1.toNat p.2.toNat v) b

def defaultSearchPiece : SearchPiece := ⟨[], 0⟩

/-- The triple placement loop's iteration space, in iteration order:
every remaining piece (ascending index), every one of its
orientations (stored order), every anchor-ball index
`0 ≤ k < NumBalls`. -/
def attemptsOf (sp : List SearchPiece) (flags : Nat) : List (Nat × List (Nat × Nat) × Nat) :=
  (remainingPieces flags).flatMap fun i =>
    let piece := sp.getD i defaultSearchPiece
    piece.Orientations.flatMap fun o =>
      (List.range piece.NumBalls).map fun k => (i, o, k)

/-- `CanPlace` for one attempt `(piece, orientation, anchor index)`. -/
def attemptCanPlace (sp : List SearchPiece) (NumRows NumCols : Nat) (tR tC : Int)
    (b : Board) (a : Nat × List (Nat × Nat) × Nat) : Bool :=
  (canPlaceAux b NumRows NumCols tR tC (a.2.1.getD a.2.2 (0, 0))
    (testBalls a.2.1 (sp.getD a.1 defaultSearchPiece).NumBalls)).1

/-- Balls tested by one attempt (counted whether or not it places). -/
def attemptBallsTested (sp : List SearchPiece) (NumRows NumCols : Nat) (tR tC : Int)
    (b : Board) (a : Nat × List (Nat × Nat) × Nat) : Nat :=
  (canPlaceAux b NumRows NumCols tR tC (a.2.1.getD a.2.2 (0, 0))
    (testBalls a.2.1 (sp.getD a.1 defaultSearchPiece).NumBalls)).2

/-- The new search state built from a valid placement: the parent
board with the placed balls marked, the piece's bit cleared, and the
fill cursor advanced by one from the *parent state's* cursor (line
`NewSearchState.EmptyCellIdx++` increments the copied field). -/
def childOf (sp : List SearchPiece) (tR tC : Int) (s : SearchState)
    (a : Nat × List (Nat × Nat) × Nat) : SearchState :=
  let piece := sp.getD a.1 defaultSearchPiece
  { board := placeBalls s.board tR tC (a.2.1.getD a.2.2 (0, 0)) a.2.1 piece.NumBalls
      (PieceIndexToCellValue a.1)
    RemainingPieceBitFlags := clearPieceBit s.RemainingPieceBitFlags a.1
    EmptyCellIdx := s.EmptyCellIdx + 1 }

/-- Everything one iteration of the outer `while` loop produces from
the popped state: child states (in push order), recorded solutions (if
the placed piece was the last), the two inner-loop counter increments,
and whether the target-cell scan ran off the end of the list. -/
structure ExpandOut where
  children : List SearchState
  sols : List Board
  attempts : Nat
  ballChecks : Nat
  scanFailed : Bool

/-- The target cell of a popped state, as the signed coordinates the
placement loop uses.  If the scan finds no target cell, the C++
leaves `RowIdx`/`ColIdx` uninitialized and (with `NDEBUG`) runs the
placement loop anyway; the unspecified values are modelled by the
explicit `junk` parameter. -/
def expandTarget (emptyCells : List (Nat × Nat)) (junk : Int × Int)
    (s : SearchState) : Int × Int :=
  match scanTarget s.board emptyCells s.EmptyCellIdx with
  | some x => ((x.2.1 : Int), (x.2.2 : Int))
  | none => junk

/-- Process one popped state. -/
def expandState (sp : List SearchPiece) (emptyCells : List (Nat × Nat))
    (NumRows NumCols : Nat) (junk : Int × Int) (s : SearchState) : ExpandOut :=
  let t := expandTarget emptyCells junk s
  let atts := attemptsOf sp s.RemainingPieceBitFlags
  let isLast := (remainingPieces s.RemainingPieceBitFlags).length == 1
  let placed := atts.filter (attemptCanPlace sp NumRows NumCols t.1 t.2 s.board)
  { children := if isLast then [] else placed.map (childOf sp t.1 t.2 s)
    sols := if isLast then placed.map fun a => (childOf sp t.1 t.2 s a).board else []
    attempts := atts.length
    ballChecks := (atts.map (attemptBallsTested sp NumRows NumCols t.1 t.2 s.board)).sum
    scanFailed := (scanTarget s.board emptyCells s.EmptyCellIdx).isNone }

/-! ## Termination measure for the explicit-stack loop -/

/-- Upper bound on the number of placement attempts a single state can
generate: summed over all twelve piece slots. -/
def maxAttempts (sp : List SearchPiece) : Nat :=
  ((List.range 12).map fun i =>
    (sp.getD i defaultSearchPiece).Orientations.length *
      (sp.getD i defaultSearchPiece).NumBalls).sum

/-- Measure of a stack: each state weighs
`(maxAttempts + 1) ^ (number of its remaining pieces)`. -/
def stackMeasure (sp : List SearchPiece) (stack : List SearchState) : Nat :=
  (stack.map fun s =>
    (maxAttempts sp + 1) ^ (remainingPieces s.RemainingPieceBitFlags).length).sum

lemma mem_attemptsOf {sp : List SearchPiece} {flags : Nat}
    {a : Nat × List (Nat × Nat) × Nat} (h : a ∈ attemptsOf sp flags) :
    a.1 ∈ remainingPieces flags := by
  simp only [attemptsOf, List.mem_flatMap, List.mem_map] at h
  obtain ⟨i, hi, o, _, k, _, rfl⟩ := h
  exact hi

lemma remainingPieces_sublist (flags : Nat) :
    List.Sublist (remainingPieces flags) (List.range 12) :=
  List.filter_sublist _

lemma mem_remainingPieces_lt {flags i : Nat} (h : i ∈ remainingPieces flags) : i < 12 := by
  have := (remainingPieces_sublist flags).subset h
  simpa using this

lemma bitTest_eq_testBit (n j : Nat) : ((n >>> j) &&& 1 == 1) = n.testBit j := by
  rw [Nat.testBit, Nat.and_comm 1 (n >>> j)]
  rcases Nat.mod_two_eq_zero_or_one (n >>> j) with h | h <;>
    simp [Nat.and_one_is_mod, h]

lemma testBit_clearPieceBit (flags i j : Nat) (hj : j < 12) :
    (clearPieceBit flags i).testBit j = (flags.testBit j && !(j == i)) := by
  have h4096 : (4096 : Nat) = 2 ^ 12 := by norm_num
  have hshift : (1 <<< i) = 2 ^ i := by simp [Nat.shiftLeft_eq]
  have hj32 : j < 32 := by omega
  simp only [clearPieceBit, h4096, hshift, Nat.testBit_mod_two_pow, Nat.testBit_land,
    Nat.testBit_xor, Nat.testBit_two_pow, Nat.testBit_two_pow_sub_one]
  by_cases hij : i = j
  · subst hij
    simp [hj, hj32]
  · have hji : (j == i) = false := by
      simp [Ne.symm hij]
    cases hb : flags.testBit j <;> simp [hj, hj32, hb, hij, hji]

lemma remainingPieces_clearPieceBit (flags i : Nat) :
    remainingPieces (clearPieceBit flags i) =
      (remainingPieces flags).filter fun j => !(j == i) := by
  simp only [remainingPieces, List.filter_filter]
  apply List.filter_congr
  intro j hj
  have hj12 : j < 12 := by simpa using hj
  rw [bitTest_eq_testBit, bitTest_eq_testBit, testBit_clearPieceBit flags i j hj12,
    Bool.and_comm]

lemma nodup_remainingPieces (flags : Nat) : (remainingPieces flags).Nodup :=
  (List.nodup_range 12).filter _

lemma length_remainingPieces_clearPieceBit {flags i : Nat}
    (h : i ∈ remainingPieces flags) :
    (remainingPieces (clearPieceBit flags i)).length =
      (remainingPieces flags).length - 1 := by
  rw [remainingPieces_clearPieceBit flags i]
  have he : (remainingPieces flags).filter (fun j => !(j == i)) =
      (remainingPieces flags).erase i := by
    rw [List.Nodup.erase_eq_filter (nodup_remainingPieces flags)]
    apply List.filter_congr
    intro j _
    cases hji : (j == i) <;> simp_all
  rw [he]
  exact List.length_erase_of_mem h

/-! ## The solver loop -/

/-- The three statistics counters. -/
structure Stats where
  boardStates : Nat
  orientations : Nat
  balls : Nat
deriving DecidableEq

/-- One step of `while (!SearchStates.empty())` deducts the stack
measure, so the measure plus one is enough fuel for the whole loop;
the loop is phrased structurally on that fuel (the fuel-exhausted
branch is unreachable whenever the fuel exceeds the stack measure,
see `solveAuxF_congr` and `solveAux_eq`).

The stack is a list with its head as top (children are appended in
push order, hence reversed onto the front).  `assertOn` models
whether `NDEBUG` is off; when the target-cell scan runs off the end
of the empty-cell list and the assertion is compiled in, the run
aborts (`none`).  The fourth accumulator is ghost instrumentation:
the list of popped states in pop order. -/
def solveAuxF (assertOn : Bool) (sp : List SearchPiece) (emptyCells : List (Nat × Nat))
    (NumRows NumCols : Nat) (junk : Int × Int) :
    Nat → List SearchState → List Board → Stats → List SearchState →
    Option (List Board × Stats × List SearchState)
  | 0, _, _, _, _ => none
  | _ + 1, [], sols, stats, trace => some (sols, stats, trace)
  | fuel + 1, s :: rest, sols, stats, trace =>
    let e := expandState sp emptyCells NumRows NumCols junk s
    if e.scanFailed && assertOn then none
    else
      solveAuxF assertOn sp emptyCells NumRows NumCols junk fuel
        (e.children.reverse ++ rest) (sols ++ e.sols)
        ⟨stats.boardStates + 1, stats.orientations + e.attempts, stats.balls + e.ballChecks⟩
        (trace ++ [s])

/-- The `while (!SearchStates.empty())` loop, with enough fuel. -/
def solveAux (assertOn : Bool) (sp : List SearchPiece) (emptyCells : List (Nat × Nat))
    (NumRows NumCols : Nat) (junk : Int × Int) (stack : List SearchState)
    (sols : List Board) (stats : Stats) (trace : List SearchState) :
    Option (List Board × Stats × List SearchState) :=
  solveAuxF assertOn sp emptyCells NumRows NumCols junk
    (stackMeasure sp stack + 1) stack sols stats trace

/-- `solver::Solve` with the ghost pop trace: precompute the empty
cells, build the initial state, run the loop. -/
def SolveFull (assertOn : Bool) (sp : List SearchPiece) (InputBoard : Board)
    (NumRows NumCols : Nat) (junk : Int × Int) :
    Option (List Board × Stats × List SearchState) :=
  solveAux assertOn sp (emptyCellsOf InputBoard) NumRows NumCols junk
    [initialState InputBoard NumRows NumCols] [] ⟨0, 0, 0⟩ []

/-- Build configuration: `#define FAST 1` in the shipped source;
`WITH_STATS` and assertions (`!NDEBUG`) are both `!FAST`. -/
structure Config where
  fast : Bool

def shipped : Config := ⟨true⟩

def assertEnabled (c : Config) : Bool := !c.fast

def statsEnabled (c : Config) : Bool := !c.fast

/-- `solver::Solve` as observed by the caller: the solution list is
always produced; the three counters are written only when
`WITH_STATS` is compiled in (`none` models "left unwritten"). -/
def Solve (cfg : Config) (sp : List SearchPiece) (InputBoard : Board)
    (NumRows NumCols : Nat) (junk : Int × Int) :
    Option (List Board × Option Stats) :=
  (SolveFull (assertEnabled cfg) sp InputBoard NumRows NumCols junk).map
    fun out => (out.1, if statsEnabled cfg then some out.2.1 else none)

/-! ## Concrete inputs used in the theorems below -/

/-- A 16×16 board from a ragged row list, padded with `Invalid` (the
reader of `boards.txt` pre-fills the grid with `Invalid`). -/
def boardOfRows (rows : List (List Nat)) : Board :=
  (List.range 16).map fun r => (List.range 16).map fun c => (rows.getD r []).getD c cellInvalid

/-- A single-ball piece (fully symmetric). -/
def pieceSingle : PieceDef := fun r c => r.val == 0 && c.val == 0

/-- Two balls in one row with a one-cell gap: `(0,0)` and `(0,2)`. -/
def pieceGap : PieceDef := fun r c => r.val == 0 && (c.val == 0 || c.val == 2)

/-- The F-pentomino: no rotational or reflective symmetry. -/
def pieceF : PieceDef := fun r c =>
  (r.val == 0 && (c.val == 1 || c.val == 2)) ||
  (r.val == 1 && (c.val == 0 || c.val == 1)) ||
  (r.val == 2 && c.val == 1)

/-- Inventory of twelve single-ball pieces. -/
def invSingles : List SearchPiece := Initialize (List.replicate 12 pieceSingle)

/-- Inventory: piece 0 is the gap piece, pieces 1–11 single balls. -/
def invMixed : List SearchPiece := Initialize (pieceGap :: List.replicate 11 pieceSingle)

/-- A board with every piece value `Piece01`..`Piece12` pre-placed in
row 0 and no `Empty` cell (logical extents 1×12). -/
def boardFullPre : Board := boardOfRows [[3, 4, 5, 6, 7, 8, 9, 10, 11, 12, 13, 14]]

/-- A board whose only non-`Invalid` cell is one `Blocked` cell
(logical extents 1×1): no `Empty` cell, twelve remaining pieces. -/
def boardOneBlocked : Board := boardOfRows [[2]]

/-- A 1×13 board: pieces `A`..`I` pre-placed (cell values 3..11), then
four `Empty` cells (columns 9–12).  The computed remaining set is
`{0, 1, 2}`. -/
def boardRow13 : Board := boardOfRows [[3, 4, 5, 6, 7, 8, 9, 10, 11, 0, 0, 0, 0]]

/-- A state reached while solving `boardRow13` with `invMixed`: the
gap piece (value 3) placed on columns 9 and 11, piece C (value 5) on
column 10, piece B remaining, fill cursor 2. -/
def c6State : SearchState := ⟨boardOfRows [[3, 4, 5, 6, 7, 8, 9, 10, 11, 3, 5, 3, 0]], 2, 2⟩

/-- The placement attempt (piece 1, its single-ball orientation,
anchor ball 0) made from `c6State`. -/
def c6Attempt : Nat × List (Nat × Nat) × Nat := (1, [(0, 0)], 0)

/-- The first child pushed when the initial `boardRow13` state is
expanded: the gap piece placed on columns 9 and 11. -/
def c9Child : SearchState := ⟨boardOfRows [[3, 4, 5, 6, 7, 8, 9, 10, 11, 3, 0, 3, 0]], 6, 1⟩

/-- Physical well-formedness of a board value: 16 rows of 16 cells
(what every board built by the program satisfies). -/
def BoardWF (b : Board) : Prop := b.length = 16 ∧ ∀ row ∈ b, row.length = 16

instance (b : Board) : Decidable (BoardWF b) := by
  unfold BoardWF
  exact instDecidableAnd

/-! ## Declarative solution specification

These definitions state, independently of the search, what a
solution board is: a complete tiling of the input board's `Empty`
cells by the remaining pieces, one placement per piece, each
placement a translate of a generated orientation. -/

/-- `cells` is a translate of the orientation `o` (ball by ball, by a
common signed offset). -/
def IsTranslate (o : List (Nat × Nat)) (cells : List (Nat × Nat)) : Prop :=
  ∃ dR dC : Int, cells.length = o.length ∧
    ∀ k, k < o.length →
      ((cells.getD k (0, 0)).1 : Int) = ((o.getD k (0, 0)).1 : Int) + dR ∧
      ((cells.getD k (0, 0)).2 : Int) = ((o.getD k (0, 0)).2 : Int) + dC

/-- A complete tiling of the `Empty` cells of board `b`: one tile per
piece of `rem` (in some order), each tile a translate of one of that
piece's generated orientations, the tiles pairwise disjoint, and the
tiles together covering exactly the `Empty` cells of `b`. -/
def IsTilingOf (sp : List SearchPiece) (b : Board) (rem : List Nat)
    (T : List (Nat × List (Nat × Nat))) : Prop :=
  (T.map Prod.fst).Perm rem ∧
  (∀ e ∈ T, ∃ o ∈ (sp.getD e.1 defaultSearchPiece).Orientations, IsTranslate o e.2) ∧
  (T.flatMap Prod.snd).Nodup ∧
  (∀ p : Nat × Nat, p ∈ T.flatMap Prod.snd ↔ p ∈ emptyCellsOf b)

/-- Write every tile of `T` onto `b` (each cell receives its piece's
cell value). -/
def paint (b : Board) (T : List (Nat × List (Nat × Nat))) : Board :=
  T.foldl
    (fun bb e =>
      e.2.foldl (fun bb2 p => setCell bb2 p.1 p.2 (PieceIndexToCellValue e.1)) bb) b

/-- `B` is a solution board for input `b` and remaining pieces `rem`. -/
def IsSolutionBoard (sp : List SearchPiece) (b : Board) (rem : List Nat)
    (B : Board) : Prop :=
  ∃ T, IsTilingOf sp b rem T ∧ B = paint b T

/-- The well-formedness `Initialize` guarantees for its output: every
orientation's ball list has `NumBalls` distinct in-grid balls, and
every piece has at least one ball and at least one orientation.
(`1 ≤ NumBalls` encodes the spec's input constraint that a piece
definition has at least one occupied cell.) -/
def SPGood (sp : List SearchPiece) : Prop :=
  ∀ pc ∈ sp,
    (∀ o ∈ pc.Orientations, o.length = pc.NumBalls ∧ o.Nodup) ∧
    1 ≤ pc.NumBalls ∧ pc.Orientations ≠ []

/-- The per-state well-formedness invariant of the search relative to
the input board: a physically well-formed board that extends the
input (non-`Empty` input cells are unchanged, `Empty` cells of the
state were `Empty` on the input), whose empty-list positions before
the fill cursor are all filled, and whose number of `Empty` cells
equals the summed ball counts of its remaining pieces. -/
def StateWF (sp : List SearchPiece) (input : Board) (s : SearchState) : Prop :=
  BoardWF s.board ∧
  (∀ r c : Nat, r < 16 → c < 16 → getCell input r c ≠ cellEmpty →
    getCell s.board r c = getCell input r c) ∧
  (∀ r c : Nat, r < 16 → c < 16 → getCell s.board r c = cellEmpty →
    getCell input r c = cellEmpty) ∧
  (∀ k, k < s.EmptyCellIdx → k < (emptyCellsOf input).length →
    getCell s.board ((emptyCellsOf input).getD k (0, 0)).1
      ((emptyCellsOf input).getD k (0, 0)).2 ≠ cellEmpty) ∧
  (emptyCellsOf s.board).length =
    ((remainingPieces s.RemainingPieceBitFlags).map
      fun i => (sp.getD i defaultSearchPiece).NumBalls).sum

/-- All boards reachable as recorded solutions from a search state:
either the state records `B` directly (last-piece placement), or some
pushed child reaches it. -/
inductive Reaches (sp : List SearchPiece) (emptyCells : List (Nat × Nat))
    (NumRows NumCols : Nat) (junk : Int × Int) : SearchState → Board → Prop
  | sol (s : SearchState) (B : Board)
      (hB : B ∈ (expandState sp emptyCells NumRows NumCols junk s).sols) :
      Reaches sp emptyCells NumRows NumCols junk s B
  | step (s child : SearchState) (B : Board)
      (hc : child ∈ (expandState sp emptyCells NumRows NumCols junk s).children)
      (hB : Reaches sp emptyCells NumRows NumCols junk child B) :
      Reaches sp emptyCells NumRows NumCols junk s B

/-! ## Supporting lemmas -/

lemma length_attemptsOf_le (sp : List SearchPiece) (flags : Nat) :
    (attemptsOf sp flags).length ≤ maxAttempts sp := by
  have hterm : ∀ i : Nat,
      ((sp.getD i defaultSearchPiece).Orientations.flatMap fun o =>
        (List.range (sp.getD i defaultSearchPiece).NumBalls).map fun k =>
          (i, o, k)).length =
      (sp.getD i defaultSearchPiece).Orientations.length *
        (sp.getD i defaultSearchPiece).NumBalls := by
    intro i
    rw [List.length_flatMap]
    have : (List.map
        (List.length ∘ fun o => (List.range (sp.getD i defaultSearchPiece).NumBalls).map
          fun k => (i, o, k)) (sp.getD i defaultSearchPiece).Orientations) =
        List.map (fun _ => (sp.getD i defaultSearchPiece).NumBalls)
          (sp.getD i defaultSearchPiece).Orientations := by
      apply List.map_congr_left
      intro o _
      simp [Function.comp]
    rw [this, List.map_const', List.sum_replicate, smul_eq_mul, Nat.mul_comm]
  have hlen : (attemptsOf sp flags).length =
      ((remainingPieces flags).map fun i =>
        (sp.getD i defaultSearchPiece).Orientations.length *
          (sp.getD i defaultSearchPiece).NumBalls).sum := by
    simp only [attemptsOf, List.length_flatMap]
    congr 1
    apply List.map_congr_left
    intro i _
    exact hterm i
  rw [hlen, maxAttempts]
  exact List.Sublist.sum_le_sum
    ((remainingPieces_sublist flags).map _) (fun _ _ => Nat.zero_le _)

lemma expandState_children_eq (sp : List SearchPiece) (emptyCells : List (Nat × Nat))
    (NumRows NumCols : Nat) (junk : Int × Int) (s : SearchState) :
    (expandState sp emptyCells NumRows NumCols junk s).children =
      if (remainingPieces s.RemainingPieceBitFlags).length == 1 then []
      else ((attemptsOf sp s.RemainingPieceBitFlags).filter
        (attemptCanPlace sp NumRows NumCols (expandTarget emptyCells junk s).1
          (expandTarget emptyCells junk s).2 s.board)).map
        (childOf sp (expandTarget emptyCells junk s).1
          (expandTarget emptyCells junk s).2 s) := rfl

lemma expand_measure_lt (sp : List SearchPiece) (emptyCells : List (Nat × Nat))
    (NumRows NumCols : Nat) (junk : Int × Int) (s : SearchState) :
    stackMeasure sp (expandState sp emptyCells NumRows NumCols junk s).children <
      (maxAttempts sp + 1) ^ (remainingPieces s.RemainingPieceBitFlags).length := by
  set r := (remainingPieces s.RemainingPieceBitFlags).length with hr
  set B := maxAttempts sp + 1 with hB
  have hBpos : 0 < B := Nat.succ_pos _
  rw [expandState_children_eq]
  cases hlast : ((remainingPieces s.RemainingPieceBitFlags).length == 1) with
  | true =>
    rw [if_pos rfl]
    simp only [stackMeasure, List.map_nil, List.sum_nil]
    exact pow_pos hBpos r
  | false =>
    rw [if_neg (by simp)]
    set t := expandTarget emptyCells junk s with ht
    set placed := (attemptsOf sp s.RemainingPieceBitFlags).filter
      (attemptCanPlace sp NumRows NumCols t.1 t.2 s.board) with hplaced
    rcases Nat.eq_zero_or_pos placed.length with hlen | hlen
    · rw [List.length_eq_zero] at hlen
      rw [hlen]
      simp only [stackMeasure, List.map_nil, List.sum_nil]
      exact pow_pos hBpos r
    · -- every placed attempt's piece is remaining, so r ≥ 1 and each
      -- child has exactly r - 1 remaining pieces
      have hrpos : 1 ≤ r := by
        obtain ⟨a, ha⟩ := List.exists_mem_of_length_pos hlen
        have hmem := mem_attemptsOf (List.mem_of_mem_filter ha)
        have := List.length_pos_of_mem hmem
        omega
      have hsum : stackMeasure sp (placed.map (childOf sp t.1 t.2 s)) =
          placed.length * B ^ (r - 1) := by
        unfold stackMeasure
        rw [List.map_map]
        have hcg : List.map
            ((fun st => B ^ (remainingPieces st.RemainingPieceBitFlags).length) ∘
              childOf sp t.1 t.2 s) placed =
            List.map (fun _ => B ^ (r - 1)) placed := by
          apply List.map_congr_left
          intro a ha
          have hmem : a.1 ∈ remainingPieces s.RemainingPieceBitFlags :=
            mem_attemptsOf (List.mem_of_mem_filter ha)
          simp [Function.comp, childOf, length_remainingPieces_clearPieceBit hmem, hr]
        rw [hcg, List.map_const', List.sum_replicate, smul_eq_mul]
      rw [hsum]
      have hle : placed.length ≤ maxAttempts sp :=
        le_trans (List.length_filter_le _ _) (length_attemptsOf_le sp _)
      calc placed.length * B ^ (r - 1)
          ≤ maxAttempts sp * B ^ (r - 1) := Nat.mul_le_mul_right _ hle
        _ < B * B ^ (r - 1) :=
            (Nat.mul_lt_mul_right (pow_pos hBpos _)).mpr (Nat.lt_succ_self _)
        _ = B ^ (r - 1 + 1) := by ring
        _ = B ^ r := by congr 1; omega

/-- Popping a state and pushing its children strictly decreases the
stack measure. -/
lemma stackMeasure_step_lt (sp : List SearchPiece) (emptyCells : List (Nat × Nat))
    (NumRows NumCols : Nat) (junk : Int × Int) (s : SearchState) (rest : List SearchState) :
    stackMeasure sp
        ((expandState sp emptyCells NumRows NumCols junk s).children.reverse ++ rest) <
      stackMeasure sp (s :: rest) := by
  have h := expand_measure_lt sp emptyCells NumRows NumCols junk s
  simp only [stackMeasure, List.map_append, List.sum_append, List.map_reverse,
    List.sum_reverse, List.map_cons, List.sum_cons] at h ⊢
  omega

/-- The loop result does not depend on the fuel, as long as the fuel
exceeds the stack measure. -/
lemma solveAuxF_congr (assertOn : Bool) (sp : List SearchPiece)
    (emptyCells : List (Nat × Nat)) (NumRows NumCols : Nat) (junk : Int × Int) :
    ∀ (f1 f2 : Nat) (stack : List SearchState) (sols : List Board) (stats : Stats)
      (trace : List SearchState),
      stackMeasure sp stack < f1 → stackMeasure sp stack < f2 →
      solveAuxF assertOn sp emptyCells NumRows NumCols junk f1 stack sols stats trace =
        solveAuxF assertOn sp emptyCells NumRows NumCols junk f2 stack sols stats trace := by
  intro f1
  induction f1 with
  | zero => intro f2 stack sols stats trace h1 _; omega
  | succ f1 ih =>
    intro f2 stack sols stats trace h1 h2
    match f2 with
    | 0 => omega
    | f2 + 1 =>
      match stack with
      | [] => rfl
      | s :: rest =>
        simp only [solveAuxF]
        have hlt := stackMeasure_step_lt sp emptyCells NumRows NumCols junk s rest
        by_cases habort :
            ((expandState sp emptyCells NumRows NumCols junk s).scanFailed && assertOn)
        · simp [habort]
        · simp only [habort, Bool.false_eq_true, if_false]
          exact ih f2 _ _ _ _ (by omega) (by omega)

lemma solveAux_nil (assertOn : Bool) (sp : List SearchPiece)
    (emptyCells : List (Nat × Nat)) (NumRows NumCols : Nat) (junk : Int × Int)
    (sols : List Board) (stats : Stats) (trace : List SearchState) :
    solveAux assertOn sp emptyCells NumRows NumCols junk [] sols stats trace =
      some (sols, stats, trace) := rfl

/-- The one-step unfolding of the loop on a non-empty stack. -/
lemma solveAux_cons (assertOn : Bool) (sp : List SearchPiece)
    (emptyCells : List (Nat × Nat)) (NumRows NumCols : Nat) (junk : Int × Int)
    (s : SearchState) (rest : List SearchState) (sols : List Board) (stats : Stats)
    (trace : List SearchState) :
    solveAux assertOn sp emptyCells NumRows NumCols junk (s :: rest) sols stats trace =
      (let e := expandState sp emptyCells NumRows NumCols junk s
      if e.scanFailed && assertOn then none
      else
        solveAux assertOn sp emptyCells NumRows NumCols junk
          (e.children.reverse ++ rest) (sols ++ e.sols)
          ⟨stats.boardStates + 1, stats.orientations + e.attempts,
            stats.balls + e.ballChecks⟩
          (trace ++ [s])) := by
  show solveAuxF assertOn sp emptyCells NumRows NumCols junk
      (stackMeasure sp (s :: rest) + 1) (s :: rest) sols stats trace = _
  rw [solveAuxF]
  by_cases habort :
      ((expandState sp emptyCells NumRows NumCols junk s).scanFailed && assertOn)
  · simp [habort]
  · simp only [habort, Bool.false_eq_true, if_false]
    exact solveAuxF_congr assertOn sp emptyCells NumRows NumCols junk _ _ _ _ _ _
      (stackMeasure_step_lt sp emptyCells NumRows NumCols junk s rest)
      (Nat.lt_succ_self _)

/-! ## Properties of `PushUpAndLeft` -/

lemma minStep_le (D : PieceDef) (acc : Nat × Nat) (rc : Fin 4 × Fin 4) :
    (minStep D acc rc).1 ≤ acc.1 ∧ (minStep D acc rc).2 ≤ acc.2 := by
  unfold minStep
  by_cases h : D rc.1 rc.2 = true
  · rw [if_pos h]
    constructor <;> dsimp only <;> split <;> omega
  · rw [if_neg h]
    exact ⟨le_refl _, le_refl _⟩

lemma foldl_minStep_le (D : PieceDef) (l : List (Fin 4 × Fin 4)) (acc : Nat × Nat) :
    (l.foldl (minStep D) acc).1 ≤ acc.1 ∧ (l.foldl (minStep D) acc).2 ≤ acc.2 := by
  induction l generalizing acc with
  | nil => exact ⟨le_refl _, le_refl _⟩
  | cons rc rest ih =>
    have h1 := minStep_le D acc rc
    have h2 := ih (minStep D acc rc)
    simp only [List.foldl_cons]
    omega

lemma foldl_minStep_le_occ (D : PieceDef) (l : List (Fin 4 × Fin 4)) (acc : Nat × Nat)
    (rc : Fin 4 × Fin 4) (hm : rc ∈ l) (hD : D rc.1 rc.2 = true) :
    (l.foldl (minStep D) acc).1 ≤ rc.1.val ∧ (l.foldl (minStep D) acc).2 ≤ rc.2.val := by
  induction l generalizing acc with
  | nil => cases hm
  | cons hd rest ih =>
    simp only [List.foldl_cons]
    rcases List.mem_cons.mp hm with rfl | hm
    · have hstep : (minStep D acc rc).1 ≤ rc.1.val ∧ (minStep D acc rc).2 ≤ rc.2.val := by
        unfold minStep
        rw [if_pos hD]
        constructor <;> dsimp only <;> split <;> omega
      have := foldl_minStep_le D rest (minStep D acc rc)
      omega
    · exact ih _ hm

lemma foldl_minStep_src (D : PieceDef) (l : List (Fin 4 × Fin 4)) (acc : Nat × Nat) :
    ((l.foldl (minStep D) acc).1 = acc.1 ∨
      ∃ rc ∈ l, D rc.1 rc.2 = true ∧ (l.foldl (minStep D) acc).1 = rc.1.val) ∧
    ((l.foldl (minStep D) acc).2 = acc.2 ∨
      ∃ rc ∈ l, D rc.1 rc.2 = true ∧ (l.foldl (minStep D) acc).2 = rc.2.val) := by
  induction l generalizing acc with
  | nil => exact ⟨Or.inl rfl, Or.inl rfl⟩
  | cons hd rest ih =>
    simp only [List.foldl_cons]
    obtain ⟨ih1, ih2⟩ := ih (minStep D acc hd)
    constructor
    · rcases ih1 with h | ⟨rc, hrc, hDrc, hval⟩
      · by_cases hocc : D hd.1 hd.2 = true
        · by_cases hle : hd.1.val ≤ acc.1
          · right
            refine ⟨hd, List.mem_cons_self _ _, hocc, ?_⟩
            rw [h]
            simp [minStep, hocc, hle]
          · left
            rw [h]
            simp [minStep, hocc, hle]
        · left
          rw [h]
          simp [minStep, hocc]
      · exact Or.inr ⟨rc, List.mem_cons_of_mem _ hrc, hDrc, hval⟩
    · rcases ih2 with h | ⟨rc, hrc, hDrc, hval⟩
      · by_cases hocc : D hd.1 hd.2 = true
        · by_cases hle : hd.2.val ≤ acc.2
          · right
            refine ⟨hd, List.mem_cons_self _ _, hocc, ?_⟩
            rw [h]
            simp [minStep, hocc, hle]
          · left
            rw [h]
            simp [minStep, hocc, hle]
        · left
          rw [h]
          simp [minStep, hocc]
      · exact Or.inr ⟨rc, List.mem_cons_of_mem _ hrc, hDrc, hval⟩

lemma mem_gridIdx (rc : Fin 4 × Fin 4) : rc ∈ gridIdx := by
  obtain ⟨r, c⟩ := rc
  fin_cases r <;> fin_cases c <;> decide

lemma minRowCol_le_occ {D : PieceDef} {r c : Fin 4} (h : D r c = true) :
    (minRowCol D).1 ≤ r.val ∧ (minRowCol D).2 ≤ c.val :=
  foldl_minStep_le_occ D gridIdx (3, 3) (r, c) (mem_gridIdx _) h

lemma minRowCol_row_occ {D : PieceDef} {r c : Fin 4} (h : D r c = true) :
    ∃ r' c' : Fin 4, D r' c' = true ∧ r'.val = (minRowCol D).1 := by
  rcases (foldl_minStep_src D gridIdx (3, 3)).1 with h3 | ⟨rc, _, hDrc, hval⟩
  · have hle := (minRowCol_le_occ h).1
    have : r.val = 3 := by have := r.isLt; rw [minRowCol] at *; omega
    exact ⟨r, c, h, by rw [this, minRowCol, h3]⟩
  · exact ⟨rc.1, rc.2, hDrc, hval.symm⟩

lemma minRowCol_col_occ {D : PieceDef} {r c : Fin 4} (h : D r c = true) :
    ∃ r' c' : Fin 4, D r' c' = true ∧ c'.val = (minRowCol D).2 := by
  rcases (foldl_minStep_src D gridIdx (3, 3)).2 with h3 | ⟨rc, _, hDrc, hval⟩
  · have hle := (minRowCol_le_occ h).2
    have : c.val = 3 := by have := c.isLt; rw [minRowCol] at *; omega
    exact ⟨r, c, h, by rw [this, minRowCol, h3]⟩
  · exact ⟨rc.1, rc.2, hDrc, hval.symm⟩

lemma pushUpAndLeft_of_empty {D : PieceDef} (h : ∀ r c : Fin 4, D r c = false)
    (r c : Fin 4) : PushUpAndLeft D r c = false := by
  unfold PushUpAndLeft
  split
  · exact h _ _
  · rfl

lemma minRowCol_push_zero {D : PieceDef} {r c : Fin 4} (h : D r c = true) :
    minRowCol (PushUpAndLeft D) = (0, 0) := by
  obtain ⟨r1, c1, hD1, hr1⟩ := minRowCol_row_occ h
  obtain ⟨r2, c2, hD2, hc2⟩ := minRowCol_col_occ h
  have hmc1 : (minRowCol D).2 ≤ c1.val := (minRowCol_le_occ hD1).2
  have hmr2 : (minRowCol D).1 ≤ r2.val := (minRowCol_le_occ hD2).1
  -- the pushed grid is occupied at row 0 and at column 0
  have hrow : PushUpAndLeft D ⟨0, by omega⟩ ⟨c1.val - (minRowCol D).2, by omega⟩ = true := by
    unfold PushUpAndLeft
    have hcond : 0 + (minRowCol D).1 < 4 ∧
        (c1.val - (minRowCol D).2) + (minRowCol D).2 < 4 := by
      have := r1.isLt
      have := c1.isLt
      omega
    rw [dif_pos hcond]
    have e1 : (⟨0 + (minRowCol D).1, hcond.1⟩ : Fin 4) = r1 := by
      apply Fin.ext
      simp
      omega
    have e2 : (⟨(c1.val - (minRowCol D).2) + (minRowCol D).2, hcond.2⟩ : Fin 4) = c1 := by
      apply Fin.ext
      simp
      omega
    rw [e1, e2]
    exact hD1
  have hcol : PushUpAndLeft D ⟨r2.val - (minRowCol D).1, by omega⟩ ⟨0, by omega⟩ = true := by
    unfold PushUpAndLeft
    have hcond : (r2.val - (minRowCol D).1) + (minRowCol D).1 < 4 ∧
        0 + (minRowCol D).2 < 4 := by
      have := r2.isLt
      have := c2.isLt
      omega
    rw [dif_pos hcond]
    have e1 : (⟨(r2.val - (minRowCol D).1) + (minRowCol D).1, hcond.1⟩ : Fin 4) = r2 := by
      apply Fin.ext
      simp
      omega
    have e2 : (⟨0 + (minRowCol D).2, hcond.2⟩ : Fin 4) = c2 := by
      apply Fin.ext
      simp
      omega
    rw [e1, e2]
    exact hD2
  have h1 := (minRowCol_le_occ hrow).1
  have h2 := (minRowCol_le_occ hcol).2
  have := foldl_minStep_le (PushUpAndLeft D) gridIdx (3, 3)
  apply Prod.ext <;> simp at h1 h2 ⊢ <;> omega

lemma pushUpAndLeft_of_min_zero {D : PieceDef} (h : minRowCol D = (0, 0)) :
    PushUpAndLeft D = D := by
  funext r c
  unfold PushUpAndLeft
  have h1 : (minRowCol D).1 = 0 := by rw [h]
  have h2 : (minRowCol D).2 = 0 := by rw [h]
  have hcond : r.val + (minRowCol D).1 < 4 ∧ c.val + (minRowCol D).2 < 4 := by
    have := r.isLt
    have := c.isLt
    omega
  rw [dif_pos hcond]
  have e1 : (⟨r.val + (minRowCol D).1, hcond.1⟩ : Fin 4) = r := by
    apply Fin.ext
    simp [h1]
  have e2 : (⟨c.val + (minRowCol D).2, hcond.2⟩ : Fin 4) = c := by
    apply Fin.ext
    simp [h2]
  rw [e1, e2]

lemma pushUpAndLeft_idem (D : PieceDef) :
    PushUpAndLeft (PushUpAndLeft D) = PushUpAndLeft D := by
  by_cases hocc : ∃ r c : Fin 4, D r c = true
  · obtain ⟨r, c, h⟩ := hocc
    exact pushUpAndLeft_of_min_zero (minRowCol_push_zero h)
  · have hempty : ∀ r c : Fin 4, D r c = false := by
      intro r c
      cases hv : D r c
      · rfl
      · exact absurd ⟨r, c, hv⟩ hocc
    funext r c
    rw [pushUpAndLeft_of_empty (pushUpAndLeft_of_empty hempty) r c,
      pushUpAndLeft_of_empty hempty r c]

/-! ## Ball counts of orientations -/

lemma gridIdx_nodup : gridIdx.Nodup := by decide

lemma gridIdx_toFinset : gridIdx.toFinset = Finset.univ := by
  ext rc
  simp [List.mem_toFinset, mem_gridIdx]

lemma length_filter_gridIdx (p : Fin 4 × Fin 4 → Bool) :
    (gridIdx.filter p).length =
      (Finset.univ.filter fun rc : Fin 4 × Fin 4 => p rc = true).card := by
  rw [← List.toFinset_card_of_nodup (gridIdx_nodup.filter p), List.toFinset_filter,
    gridIdx_toFinset]

lemma ballCount_eq_card (D : PieceDef) :
    ballCount D = (Finset.univ.filter fun rc : Fin 4 × Fin 4 => D rc.1 rc.2 = true).card := by
  unfold ballCount ballList
  rw [List.length_map]
  exact length_filter_gridIdx _

/-- The clockwise rotation as a permutation of grid coordinates:
`Rotate D r c = D (rotCoord (r, c)).1 (rotCoord (r, c)).2`. -/
def rotCoord : (Fin 4 × Fin 4) ≃ (Fin 4 × Fin 4) where
  toFun rc := (rc.2.rev, rc.1)
  invFun rc := (rc.2, rc.1.rev)
  left_inv rc := by simp [Fin.rev_rev]
  right_inv rc := by simp [Fin.rev_rev]

def flipCoord : (Fin 4 × Fin 4) ≃ (Fin 4 × Fin 4) where
  toFun rc := (rc.1.rev, rc.2)
  invFun rc := (rc.1.rev, rc.2)
  left_inv rc := by simp [Fin.rev_rev]
  right_inv rc := by simp [Fin.rev_rev]

lemma ballCount_rotate (D : PieceDef) : ballCount (Rotate D) = ballCount D := by
  rw [ballCount_eq_card, ballCount_eq_card]
  apply Finset.card_equiv rotCoord
  intro rc
  simp [Rotate, rotCoord]

lemma ballCount_flip (D : PieceDef) : ballCount (Flip D) = ballCount D := by
  rw [ballCount_eq_card, ballCount_eq_card]
  apply Finset.card_equiv flipCoord
  intro rc
  simp [Flip, flipCoord]

lemma pushUpAndLeft_true_iff {D : PieceDef} {r c : Fin 4} :
    PushUpAndLeft D r c = true ↔
      ∃ (h : r.val + (minRowCol D).1 < 4 ∧ c.val + (minRowCol D).2 < 4),
        D ⟨r.val + (minRowCol D).1, h.1⟩ ⟨c.val + (minRowCol D).2, h.2⟩ = true := by
  unfold PushUpAndLeft
  split
  · next h => exact ⟨fun hD => ⟨h, hD⟩, fun ⟨_, hD⟩ => hD⟩
  · next h => simp [h]

lemma ballCount_pushUpAndLeft (D : PieceDef) :
    ballCount (PushUpAndLeft D) = ballCount D := by
  rw [ballCount_eq_card, ballCount_eq_card]
  refine Finset.card_nbij'
    (fun rc =>
      ((⟨(rc.1.val + (minRowCol D).1) % 4, Nat.mod_lt _ (by norm_num)⟩ : Fin 4),
       (⟨(rc.2.val + (minRowCol D).2) % 4, Nat.mod_lt _ (by norm_num)⟩ : Fin 4)))
    (fun rc =>
      ((⟨rc.1.val - (minRowCol D).1, by have := rc.1.isLt; omega⟩ : Fin 4),
       (⟨rc.2.val - (minRowCol D).2, by have := rc.2.isLt; omega⟩ : Fin 4)))
    ?_ ?_ ?_ ?_
  · intro rc h
    simp only [Finset.mem_filter, Finset.mem_univ, true_and] at h ⊢
    obtain ⟨hcond, hD⟩ := pushUpAndLeft_true_iff.mp h
    have e1 : (⟨(rc.1.val + (minRowCol D).1) % 4, Nat.mod_lt _ (by norm_num)⟩ : Fin 4) =
        ⟨rc.1.val + (minRowCol D).1, hcond.1⟩ := by
      apply Fin.ext
      simp [Nat.mod_eq_of_lt hcond.1]
    have e2 : (⟨(rc.2.val + (minRowCol D).2) % 4, Nat.mod_lt _ (by norm_num)⟩ : Fin 4) =
        ⟨rc.2.val + (minRowCol D).2, hcond.2⟩ := by
      apply Fin.ext
      simp [Nat.mod_eq_of_lt hcond.2]
    rw [e1, e2]
    exact hD
  · intro rc h
    simp only [Finset.mem_filter, Finset.mem_univ, true_and] at h ⊢
    have hle := minRowCol_le_occ h
    rw [pushUpAndLeft_true_iff]
    have hcond : (rc.1.val - (minRowCol D).1) + (minRowCol D).1 < 4 ∧
        (rc.2.val - (minRowCol D).2) + (minRowCol D).2 < 4 := by
      have := rc.1.isLt
      have := rc.2.isLt
      omega
    refine ⟨hcond, ?_⟩
    have e1 : (⟨(rc.1.val - (minRowCol D).1) + (minRowCol D).1, hcond.1⟩ : Fin 4) = rc.1 := by
      apply Fin.ext
      simp
      omega
    have e2 : (⟨(rc.2.val - (minRowCol D).2) + (minRowCol D).2, hcond.2⟩ : Fin 4) = rc.2 := by
      apply Fin.ext
      simp
      omega
    rw [e1, e2]
    exact h
  · intro rc h
    simp only [Finset.mem_coe, Finset.mem_filter, Finset.mem_univ, true_and] at h
    obtain ⟨hcond, _⟩ := pushUpAndLeft_true_iff.mp h
    apply Prod.ext <;> apply Fin.ext <;> dsimp only <;>
      rw [Nat.mod_eq_of_lt (by omega)] <;> omega
  · intro rc h
    simp only [Finset.mem_coe, Finset.mem_filter, Finset.mem_univ, true_and] at h
    have hle := minRowCol_le_occ h
    have h1 := rc.1.isLt
    have h2 := rc.2.isLt
    apply Prod.ext <;> apply Fin.ext <;> dsimp only <;>
      rw [Nat.sub_add_cancel (by omega), Nat.mod_eq_of_lt (by omega)]

lemma ballCount_normVariants {D E : PieceDef} (h : E ∈ normVariants D) :
    ballCount E = ballCount D := by
  simp only [normVariants, variants, List.mem_map, List.mem_cons, List.not_mem_nil,
    or_false] at h
  obtain ⟨V, hV, rfl⟩ := h
  rcases hV with rfl | rfl | rfl | rfl | rfl | rfl | rfl | rfl <;>
    simp [ballCount_pushUpAndLeft, ballCount_rotate, ballCount_flip]

lemma mem_foldl_dedupStep {x : PieceDef} :
    ∀ (l : List PieceDef) (acc : List PieceDef),
      x ∈ List.foldl dedupStep acc l → x ∈ acc ∨ x ∈ l := by
  intro l
  induction l with
  | nil => intro acc h; exact Or.inl h
  | cons hd rest ih =>
    intro acc h
    rcases ih (dedupStep acc hd) h with h1 | h1
    · unfold dedupStep at h1
      split at h1
      · exact Or.inl h1
      · rcases List.mem_append.mp h1 with h2 | h2
        · exact Or.inl h2
        · exact Or.inr (List.mem_cons.mpr (Or.inl (List.mem_singleton.mp h2)))
    · exact Or.inr (List.mem_cons_of_mem _ h1)

lemma mem_uniqueOrientations {D E : PieceDef} (h : E ∈ uniqueOrientations D) :
    E ∈ normVariants D := by
  rcases mem_foldl_dedupStep _ _ h with h1 | h1
  · cases h1
  · exact h1

lemma foldl_dedupStep_prefix :
    ∀ (l : List PieceDef) (acc : List PieceDef), acc <+: List.foldl dedupStep acc l := by
  intro l
  induction l with
  | nil => intro acc; exact List.prefix_refl _
  | cons hd rest ih =>
    intro acc
    refine List.IsPrefix.trans ?_ (ih (dedupStep acc hd))
    unfold dedupStep
    split
    · exact List.prefix_refl _
    · exact ⟨[hd], rfl⟩

lemma uniqueOrientations_cons (D : PieceDef) :
    ∃ t, uniqueOrientations D = PushUpAndLeft D :: t := by
  have h1 : dedupStep [] (PushUpAndLeft D) = [PushUpAndLeft D] := rfl
  have h2 : uniqueOrientations D =
      List.foldl dedupStep [PushUpAndLeft D]
        (List.map PushUpAndLeft [Rotate D, Rotate (Rotate D), Rotate (Rotate (Rotate D)),
          Flip D, Rotate (Flip D), Rotate (Rotate (Flip D)),
          Rotate (Rotate (Rotate (Flip D)))]) := by
    show List.foldl dedupStep [] (normVariants D) = _
    rw [normVariants, variants, List.map_cons, List.foldl_cons, h1]
  obtain ⟨t, ht⟩ := foldl_dedupStep_prefix
    (List.map PushUpAndLeft [Rotate D, Rotate (Rotate D), Rotate (Rotate (Rotate D)),
      Flip D, Rotate (Flip D), Rotate (Rotate (Flip D)), Rotate (Rotate (Rotate (Flip D)))])
    [PushUpAndLeft D]
  exact ⟨t, h2.trans ht.symm⟩


lemma mkSearchPiece_Orientations (D : PieceDef) :
    (mkSearchPiece D).Orientations = (uniqueOrientations D).map ballList := by
  simp only [mkSearchPiece]

lemma mkSearchPiece_NumBalls_eq (D : PieceDef) :
    (mkSearchPiece D).NumBalls =
      ballCount ((uniqueOrientations D).getLastD fun _ _ => false) := by
  simp only [mkSearchPiece]

lemma mkSearchPiece_numBalls (D : PieceDef) :
    (mkSearchPiece D).NumBalls = ballCount D := by
  rw [mkSearchPiece_NumBalls_eq]
  obtain ⟨t, ht⟩ := uniqueOrientations_cons D
  have hmem : (uniqueOrientations D).getLastD (fun _ _ => false) ∈ uniqueOrientations D := by
    rw [ht, List.getLastD_cons]
    exact List.getLastD_mem_cons _ _
  exact ballCount_normVariants (mem_uniqueOrientations hmem)

lemma mkSearchPiece_orientations_length {D : PieceDef} {o : List (Nat × Nat)}
    (h : o ∈ (mkSearchPiece D).Orientations) : o.length = (mkSearchPiece D).NumBalls := by
  rw [mkSearchPiece_Orientations] at h
  obtain ⟨E, hE, rfl⟩ := List.mem_map.mp h
  show (ballList E).length = _
  rw [mkSearchPiece_numBalls]
  exact ballCount_normVariants (mem_uniqueOrientations hE)

lemma mkSearchPiece_orientations_ne_nil (D : PieceDef) :
    (mkSearchPiece D).Orientations ≠ [] := by
  rw [mkSearchPiece_Orientations]
  obtain ⟨t, ht⟩ := uniqueOrientations_cons D
  rw [ht]
  simp

lemma ballList_nodup (D : PieceDef) : (ballList D).Nodup := by
  unfold ballList
  apply List.Nodup.map_on
  · intro x hx y hy hxy
    obtain ⟨x1, x2⟩ := x
    obtain ⟨y1, y2⟩ := y
    simp only [Prod.mk.injEq] at hxy
    have : x1 = y1 := Fin.ext hxy.1
    have : x2 = y2 := Fin.ext hxy.2
    simp_all
  · exact gridIdx_nodup.filter _

lemma ballList_bounds {D : PieceDef} {p : Nat × Nat} (h : p ∈ ballList D) :
    p.1 < 4 ∧ p.2 < 4 := by
  obtain ⟨rc, _, rfl⟩ := List.mem_map.mp h
  exact ⟨rc.1.isLt, rc.2.isLt⟩

/-! ## Injectivity of the packed representation -/

lemma packedList_foldl_acc (l : List Bool) (acc : Nat) :
    l.foldl (fun p b => 2 * p + b.toNat) acc = acc * 2 ^ l.length + packedList l := by
  induction l generalizing acc with
  | nil => simp [packedList]
  | cons b t ih =>
    have hbt : packedList (b :: t) = b.toNat * 2 ^ t.length + packedList t := by
      show List.foldl _ 0 (b :: t) = _
      rw [List.foldl_cons, ih]
      have h0 : 2 * 0 + b.toNat = b.toNat := by omega
      rw [h0]
    rw [List.foldl_cons, ih, hbt, List.length_cons]
    ring

lemma packedList_cons (b : Bool) (t : List Bool) :
    packedList (b :: t) = b.toNat * 2 ^ t.length + packedList t := by
  show List.foldl _ 0 (b :: t) = _
  rw [List.foldl_cons, packedList_foldl_acc]
  have h0 : 2 * 0 + b.toNat = b.toNat := by omega
  rw [h0]

lemma packedList_lt (l : List Bool) : packedList l < 2 ^ l.length := by
  induction l with
  | nil => simp [packedList]
  | cons b t ih =>
    rw [packedList_cons, List.length_cons]
    have h2 : 2 ^ (t.length + 1) = 2 * 2 ^ t.length := by ring
    cases b <;>
      simp only [Bool.toNat_false, Bool.toNat_true, zero_mul, one_mul, zero_add] <;>
      omega

lemma packedList_inj : ∀ (l1 l2 : List Bool), l1.length = l2.length →
    packedList l1 = packedList l2 → l1 = l2 := by
  intro l1
  induction l1 with
  | nil =>
    intro l2 hlen _
    cases l2 with
    | nil => rfl
    | cons b t => simp at hlen
  | cons b1 t1 ih =>
    intro l2 hlen hp
    cases l2 with
    | nil => simp at hlen
    | cons b2 t2 =>
      have hlen' : t1.length = t2.length := by simpa using hlen
      rw [packedList_cons, packedList_cons, hlen'] at hp
      have hp1 := packedList_lt t1
      have hp2 := packedList_lt t2
      rw [hlen'] at hp1
      cases b1 <;> cases b2 <;>
        simp only [Bool.toNat_false, Bool.toNat_true, zero_mul, one_mul, zero_add] at hp
      · rw [ih t2 hlen' hp]
      · exfalso
        omega
      · exfalso
        omega
      · rw [ih t2 hlen' (by omega)]

lemma toCellList_length (D : PieceDef) : (toCellList D).length = 16 := by
  unfold toCellList
  rw [List.length_map]
  rfl

lemma toCellList_inj {D1 D2 : PieceDef} (h : toCellList D1 = toCellList D2) : D1 = D2 := by
  unfold toCellList at h
  rw [List.map_eq_map_iff] at h
  funext r c
  exact h (r, c) (mem_gridIdx _)

lemma packed_inj {D1 D2 : PieceDef}
    (h : ComputePackedRepresentation D1 = ComputePackedRepresentation D2) : D1 = D2 := by
  apply toCellList_inj
  apply packedList_inj _ _ _ h
  rw [toCellList_length, toCellList_length]

/-! ## The deduplication loop keeps first occurrences of normalized grids -/

lemma dedupStep_eq_spec :
    dedupStep = fun acc x => if x ∈ acc then acc else acc ++ [x] := by
  funext acc x
  unfold dedupStep
  by_cases h : x ∈ acc
  · have hany : (acc.any fun E =>
        ComputePackedRepresentation E == ComputePackedRepresentation x) = true :=
      List.any_eq_true.mpr ⟨x, h, by simp⟩
    rw [if_pos hany, if_pos h]
  · have hany : (acc.any fun E =>
        ComputePackedRepresentation E == ComputePackedRepresentation x) = false := by
      rw [List.any_eq_false]
      intro E hE
      intro hbeq
      exact h (by rw [← packed_inj (eq_of_beq hbeq)]; exact hE)
    rw [if_neg (by simp [hany]), if_neg h]

lemma uniqueOrientations_eq_dedupKeepFirst (D : PieceDef) :
    uniqueOrientations D = dedupKeepFirst (normVariants D) := by
  unfold uniqueOrientations dedupKeepFirst
  rw [dedupStep_eq_spec]

lemma foldl_spec_all_mem : ∀ (l : List PieceDef) (acc : List PieceDef),
    (∀ x ∈ l, x ∈ acc) →
    l.foldl (fun acc x => if x ∈ acc then acc else acc ++ [x]) acc = acc := by
  intro l
  induction l with
  | nil => intro acc _; rfl
  | cons hd rest ih =>
    intro acc h
    rw [List.foldl_cons, if_pos (h hd (List.mem_cons_self _ _))]
    exact ih acc fun x hx => h x (List.mem_cons_of_mem _ hx)

lemma foldl_spec_nodup : ∀ (l : List PieceDef) (acc : List PieceDef),
    (∀ x ∈ l, x ∉ acc) → l.Nodup →
    l.foldl (fun acc x => if x ∈ acc then acc else acc ++ [x]) acc = acc ++ l := by
  intro l
  induction l with
  | nil => intro acc _ _; simp
  | cons hd rest ih =>
    intro acc h hnd
    rw [List.foldl_cons, if_neg (h hd (List.mem_cons_self _ _))]
    rw [ih (acc ++ [hd]) ?hm (List.Nodup.of_cons hnd)]
    · simp
    · intro x hx
      rw [List.mem_append]
      rintro (hxa | hxh)
      · exact h x (List.mem_cons_of_mem _ hx) hxa
      · rw [List.mem_singleton] at hxh
        subst hxh
        exact (List.nodup_cons.mp hnd).1 hx

lemma length_normVariants (D : PieceDef) : (normVariants D).length = 8 := by
  unfold normVariants variants
  simp

/-! ## Claim theorems -/

/-- C8: normalization is idempotent: a piece definition with at least
one occupied cell whose minimum occupied row and minimum occupied
column are already 0 (it has an occupied cell in row 0 and one in
column 0) is left unchanged by `PushUpAndLeft`; and `PushUpAndLeft`
applied twice equals `PushUpAndLeft` applied once. -/
theorem C8_normalization_idempotent :
    (∀ D : PieceDef, (∃ c, D 0 c = true) → (∃ r, D r 0 = true) → PushUpAndLeft D = D) ∧
    (∀ D : PieceDef, PushUpAndLeft (PushUpAndLeft D) = PushUpAndLeft D) := by
  constructor
  · rintro D ⟨c, hc⟩ ⟨r, hr⟩
    apply pushUpAndLeft_of_min_zero
    have h1 : (minRowCol D).1 = 0 :=
      Nat.le_zero.mp (by simpa using (minRowCol_le_occ hc).1)
    have h2 : (minRowCol D).2 = 0 :=
      Nat.le_zero.mp (by simpa using (minRowCol_le_occ hr).2)
    exact Prod.ext h1 h2
  · exact pushUpAndLeft_idem

/-- Witness for C8 at the single-ball piece. -/
theorem C8_normalization_idempotent_witness :
    PushUpAndLeft pieceSingle = pieceSingle :=
  C8_normalization_idempotent.1 pieceSingle ⟨0, by decide⟩ ⟨0, by decide⟩

/-- C7: a piece all of whose eight normalized variants coincide (full
4-fold rotational and reflective symmetry) yields exactly 1 unique
orientation; a piece whose eight normalized variants are pairwise
distinct yields exactly 8; and in all cases the unique orientations
are exactly the generation-order variants with duplicates (by
normalized-grid equality) removed. -/
theorem C7_orientation_generation :
    (∀ D : PieceDef, (∀ E ∈ normVariants D, E = PushUpAndLeft D) →
        (uniqueOrientations D).length = 1) ∧
    (∀ D : PieceDef, (normVariants D).Nodup → (uniqueOrientations D).length = 8) ∧
    (∀ D : PieceDef, uniqueOrientations D = dedupKeepFirst (normVariants D)) := by
  refine ⟨?_, ?_, uniqueOrientations_eq_dedupKeepFirst⟩
  · intro D hsym
    rw [uniqueOrientations_eq_dedupKeepFirst]
    unfold dedupKeepFirst
    have hnv : normVariants D = PushUpAndLeft D ::
        List.map PushUpAndLeft [Rotate D, Rotate (Rotate D), Rotate (Rotate (Rotate D)),
          Flip D, Rotate (Flip D), Rotate (Rotate (Flip D)),
          Rotate (Rotate (Rotate (Flip D)))] := by
      rw [normVariants, variants, List.map_cons]
    rw [hnv, List.foldl_cons, if_neg (List.not_mem_nil _), List.nil_append]
    rw [foldl_spec_all_mem]
    · rfl
    · intro x hx
      have hx' : x = PushUpAndLeft D := hsym x (by rw [hnv]; exact List.mem_cons_of_mem _ hx)
      simp [hx']
  · intro D hnd
    rw [uniqueOrientations_eq_dedupKeepFirst]
    unfold dedupKeepFirst
    rw [foldl_spec_nodup _ _ (fun x _ => List.not_mem_nil x) hnd, List.nil_append]
    exact length_normVariants D

/-- Witness for C7: the single-ball piece has 1 unique orientation,
the F-pentomino has 8. -/
theorem C7_orientation_generation_witness :
    (uniqueOrientations pieceSingle).length = 1 ∧
      (uniqueOrientations pieceF).length = 8 :=
  ⟨C7_orientation_generation.1 pieceSingle
    (by
      intro E hE
      apply packed_inj
      fin_cases hE <;> decide),
   C7_orientation_generation.2.1 pieceF
    (by
      apply List.Nodup.of_map ComputePackedRepresentation
      decide)⟩

/-- C10: after `Initialize`, every orientation of every piece has
exactly `NumBalls` balls (rotation, flip and normalization preserve
the occupied-cell count, so the last-orientation count the conversion
loop leaves in `NumBalls` matches every orientation). -/
theorem C10_numBalls_uniform (Pieces : List PieceDef) :
    ∀ pc ∈ Initialize Pieces, ∀ o ∈ pc.Orientations, o.length = pc.NumBalls := by
  intro pc hpc o ho
  obtain ⟨D, _, rfl⟩ := List.mem_map.mp hpc
  exact mkSearchPiece_orientations_length ho

/-- Witness for C10 at the gap piece of the mixed inventory. -/
theorem C10_numBalls_uniform_witness :
    ([((0 : Nat), (0 : Nat)), (0, 2)] : List (Nat × Nat)).length =
      (mkSearchPiece pieceGap).NumBalls :=
  C10_numBalls_uniform (pieceGap :: List.replicate 11 pieceSingle)
    (mkSearchPiece pieceGap) (by decide) [(0, 0), (0, 2)] (by decide)

/-! ## Board access lemmas -/

lemma boardOfRows_wf (rows : List (List Nat)) : BoardWF (boardOfRows rows) := by
  constructor
  · simp [boardOfRows]
  · intro row hrow
    simp only [boardOfRows, List.mem_map] at hrow
    obtain ⟨r, _, rfl⟩ := hrow
    simp

lemma rowlen_of_wf {b : Board} (hwf : BoardWF b) (r : Nat) (hr : r < 16) :
    (b.getD r []).length = 16 := by
  have hrb : r < b.length := by rw [hwf.1]; exact hr
  rw [List.getD_eq_getElem?_getD, List.getElem?_eq_getElem hrb, Option.getD_some]
  exact hwf.2 _ (List.getElem_mem hrb)

lemma getD_set {α : Type} (l : List α) (i j : Nat) (a d : α) (hi : i < l.length) :
    (l.set i a).getD j d = if j = i then a else l.getD j d := by
  rw [List.getD_eq_getElem?_getD, List.getD_eq_getElem?_getD]
  by_cases h : j = i
  · rw [if_pos h, h, List.getElem?_set_self hi, Option.getD_some]
  · rw [if_neg h, List.getElem?_set_ne (fun hc => h hc.symm)]

lemma setCell_wf {b : Board} (hwf : BoardWF b) (r c v : Nat) :
    BoardWF (setCell b r c v) := by
  rcases Nat.lt_or_ge r 16 with hr | hr
  · obtain ⟨hlen, hrow⟩ := hwf
    refine ⟨by simp [setCell, hlen], ?_⟩
    intro row hm
    rcases List.mem_or_eq_of_mem_set hm with h | h
    · exact hrow _ h
    · subst h
      rw [List.length_set]
      exact rowlen_of_wf ⟨hlen, hrow⟩ r hr
  · unfold setCell
    rw [List.set_eq_of_length_le (by rw [hwf.1]; omega)]
    exact hwf

lemma getCell_setCell {b : Board} (hwf : BoardWF b) {r c : Nat} (hr : r < 16) (hc : c < 16)
    (v : Nat) (r' c' : Nat) :
    getCell (setCell b r c v) r' c' =
      if r' = r ∧ c' = c then v else getCell b r' c' := by
  have hrb : r < b.length := by rw [hwf.1]; exact hr
  have hcrow : c < (b.getD r []).length := by rw [rowlen_of_wf hwf r hr]; exact hc
  unfold getCell setCell
  rw [getD_set b r r' _ [] hrb]
  by_cases h1 : r' = r
  · rw [if_pos h1, getD_set _ c c' v cellInvalid hcrow]
    by_cases h2 : c' = c
    · rw [if_pos h2, if_pos ⟨h1, h2⟩]
    · rw [if_neg h2, if_neg (fun hcon => h2 hcon.2), h1]
  · rw [if_neg h1, if_neg (fun hcon => h1 hcon.1)]

/-! ## Placement lemmas -/

lemma ballOk_iff {b : Board} {NumRows NumCols : Nat} {p : Int × Int} :
    ballOk b NumRows NumCols p = true ↔
      0 ≤ p.1 ∧ p.1 < (NumRows : Int) ∧ 0 ≤ p.2 ∧ p.2 < (NumCols : Int) ∧
        getCell b p.1.toNat p.2.toNat = cellEmpty := by
  unfold ballOk
  simp only [Bool.and_eq_true, decide_eq_true_eq, beq_iff_eq]
  tauto

lemma canPlaceAux_fst {b : Board} {NumRows NumCols : Nat} {tR tC : Int} {anchor : Nat × Nat} :
    ∀ {balls : List (Nat × Nat)},
      (canPlaceAux b NumRows NumCols tR tC anchor balls).1 = true ↔
        ∀ ball ∈ balls, ballOk b NumRows NumCols (ballAbs tR tC anchor ball) = true := by
  intro balls
  induction balls with
  | nil => simp [canPlaceAux]
  | cons ball rest ih =>
    unfold canPlaceAux
    by_cases h : ballOk b NumRows NumCols (ballAbs tR tC anchor ball) = true
    · rw [if_pos h]
      simp only [List.mem_cons]
      constructor
      · intro hrest x hx
        rcases hx with rfl | hx
        · exact h
        · exact ih.mp hrest x hx
      · intro hall
        exact ih.mpr fun x hx => hall x (Or.inr hx)
    · rw [if_neg h]
      simp only [List.mem_cons]
      constructor
      · intro hfalse
        cases hfalse
      · intro hall
        exact absurd (hall ball (Or.inl rfl)) h

lemma testBalls_eq_self (o : List (Nat × Nat)) : testBalls o o.length = o := by
  unfold testBalls
  apply List.ext_getElem
  · simp
  · intro k h1 h2
    simp only [List.getElem_map, List.getElem_range]
    rw [List.getD_eq_getElem?_getD, List.getElem?_eq_getElem (by simpa using h2),
      Option.getD_some]

/-- The absolute board cells one attempt covers (signed coordinates,
in ball order). -/
def attemptCells (sp : List SearchPiece) (tR tC : Int)
    (a : Nat × List (Nat × Nat) × Nat) : List (Int × Int) :=
  (testBalls a.2.1 (sp.getD a.1 defaultSearchPiece).NumBalls).map
    (ballAbs tR tC (a.2.1.getD a.2.2 (0, 0)))

lemma attemptCanPlace_iff {sp : List SearchPiece} {NumRows NumCols : Nat} {tR tC : Int}
    {b : Board} {a : Nat × List (Nat × Nat) × Nat} :
    attemptCanPlace sp NumRows NumCols tR tC b a = true ↔
      ∀ p ∈ attemptCells sp tR tC a, ballOk b NumRows NumCols p = true := by
  unfold attemptCanPlace attemptCells
  rw [canPlaceAux_fst]
  constructor
  · intro h p hp
    obtain ⟨ball, hball, rfl⟩ := List.mem_map.mp hp
    exact h ball hball
  · intro h ball hball
    exact h _ (List.mem_map_of_mem _ hball)

lemma getCell_foldSet (v : Nat) :
    ∀ (l : List (Int × Int)) (b : Board), BoardWF b →
      (∀ p ∈ l, 0 ≤ p.1 ∧ p.1 < 16 ∧ 0 ≤ p.2 ∧ p.2 < 16) →
      ∀ r' c' : Nat,
        getCell (l.foldl (fun bb p => setCell bb p.1.toNat p.2.toNat v) b) r' c' =
          if ((r' : Int), (c' : Int)) ∈ l then v else getCell b r' c' := by
  intro l
  induction l with
  | nil => intro b _ _ r' c'; simp
  | cons p rest ih =>
    intro b hwf hin r' c'
    obtain ⟨q1, q2⟩ := p
    obtain ⟨hq1, hq2, hq3, hq4⟩ := hin (q1, q2) (List.mem_cons_self _ _)
    rw [List.foldl_cons]
    rw [ih (setCell b q1.toNat q2.toNat v) (setCell_wf hwf _ _ _)
      (fun q hq => hin q (List.mem_cons_of_mem _ hq)) r' c']
    by_cases hmem : ((r' : Int), (c' : Int)) ∈ rest
    · rw [if_pos hmem, if_pos (List.mem_cons_of_mem _ hmem)]
    · rw [if_neg hmem, getCell_setCell hwf (by omega) (by omega) v r' c']
      by_cases hc : (r' : Int) = q1 ∧ (c' : Int) = q2
      · rw [if_pos (by constructor <;> omega),
          if_pos (List.mem_cons.mpr (Or.inl (Prod.ext hc.1 hc.2)))]
      · rw [if_neg ?h1, if_neg ?h2]
        case h1 =>
          rintro ⟨rfl, rfl⟩
          exact hc ⟨by omega, by omega⟩
        case h2 =>
          rw [List.mem_cons]
          rintro (h | h)
          · rw [Prod.mk.injEq] at h
            exact hc h
          · exact hmem h

lemma placeBalls_eq_foldSet (b : Board) (tR tC : Int) (anchor : Nat × Nat)
    (o : List (Nat × Nat)) (n v : Nat) :
    placeBalls b tR tC anchor o n v =
      ((testBalls o n).map (ballAbs tR tC anchor)).foldl
        (fun bb p => setCell bb p.1.toNat p.2.toNat v) b := by
  unfold placeBalls testBalls
  rw [List.map_map, List.foldl_map]
  rfl

lemma foldSet_wf (v : Nat) :
    ∀ (l : List (Int × Int)) (b : Board), BoardWF b →
      BoardWF (l.foldl (fun bb p => setCell bb p.1.toNat p.2.toNat v) b) := by
  intro l
  induction l with
  | nil => intro b h; exact h
  | cons p rest ih =>
    intro b hwf
    rw [List.foldl_cons]
    exact ih _ (setCell_wf hwf _ _ _)

lemma attemptCells_bounds {sp : List SearchPiece} {NumRows NumCols : Nat} {tR tC : Int}
    {b : Board} {a : Nat × List (Nat × Nat) × Nat}
    (hnr : NumRows ≤ 16) (hnc : NumCols ≤ 16)
    (hcan : attemptCanPlace sp NumRows NumCols tR tC b a = true) :
    ∀ p ∈ attemptCells sp tR tC a, 0 ≤ p.1 ∧ p.1 < 16 ∧ 0 ≤ p.2 ∧ p.2 < 16 := by
  intro p hp
  have h := ballOk_iff.mp (attemptCanPlace_iff.mp hcan p hp)
  omega

lemma childOf_board (sp : List SearchPiece) (tR tC : Int) (s : SearchState)
    (a : Nat × List (Nat × Nat) × Nat) :
    (childOf sp tR tC s a).board =
      placeBalls s.board tR tC (a.2.1.getD a.2.2 (0, 0)) a.2.1
        (sp.getD a.1 defaultSearchPiece).NumBalls (PieceIndexToCellValue a.1) := rfl

lemma childOf_flags (sp : List SearchPiece) (tR tC : Int) (s : SearchState)
    (a : Nat × List (Nat × Nat) × Nat) :
    (childOf sp tR tC s a).RemainingPieceBitFlags =
      clearPieceBit s.RemainingPieceBitFlags a.1 := rfl

lemma childOf_cursor (sp : List SearchPiece) (tR tC : Int) (s : SearchState)
    (a : Nat × List (Nat × Nat) × Nat) :
    (childOf sp tR tC s a).EmptyCellIdx = s.EmptyCellIdx + 1 := rfl

lemma getCell_childOf {sp : List SearchPiece} {NumRows NumCols : Nat} {tR tC : Int}
    {s : SearchState} {a : Nat × List (Nat × Nat) × Nat}
    (hwf : BoardWF s.board) (hnr : NumRows ≤ 16) (hnc : NumCols ≤ 16)
    (hcan : attemptCanPlace sp NumRows NumCols tR tC s.board a = true)
    (r' c' : Nat) :
    getCell (childOf sp tR tC s a).board r' c' =
      if ((r' : Int), (c' : Int)) ∈ attemptCells sp tR tC a then PieceIndexToCellValue a.1
      else getCell s.board r' c' := by
  rw [childOf_board, placeBalls_eq_foldSet]
  exact getCell_foldSet _ _ _ hwf (attemptCells_bounds hnr hnc hcan) r' c'

lemma childOf_board_wf {sp : List SearchPiece} {tR tC : Int} {s : SearchState}
    {a : Nat × List (Nat × Nat) × Nat} (hwf : BoardWF s.board) :
    BoardWF (childOf sp tR tC s a).board := by
  rw [childOf_board, placeBalls_eq_foldSet]
  exact foldSet_wf _ _ _ hwf

/-! ## Projections of one loop iteration -/

lemma expandState_sols (sp : List SearchPiece) (emptyCells : List (Nat × Nat))
    (NumRows NumCols : Nat) (junk : Int × Int) (s : SearchState) :
    (expandState sp emptyCells NumRows NumCols junk s).sols =
      if (remainingPieces s.RemainingPieceBitFlags).length == 1 then
        ((attemptsOf sp s.RemainingPieceBitFlags).filter
          (attemptCanPlace sp NumRows NumCols (expandTarget emptyCells junk s).1
            (expandTarget emptyCells junk s).2 s.board)).map
          (fun a => (childOf sp (expandTarget emptyCells junk s).1
            (expandTarget emptyCells junk s).2 s a).board)
      else [] := rfl

lemma expandState_attempts (sp : List SearchPiece) (emptyCells : List (Nat × Nat))
    (NumRows NumCols : Nat) (junk : Int × Int) (s : SearchState) :
    (expandState sp emptyCells NumRows NumCols junk s).attempts =
      (attemptsOf sp s.RemainingPieceBitFlags).length := rfl

lemma expandState_scanFailed (sp : List SearchPiece) (emptyCells : List (Nat × Nat))
    (NumRows NumCols : Nat) (junk : Int × Int) (s : SearchState) :
    (expandState sp emptyCells NumRows NumCols junk s).scanFailed =
      (scanTarget s.board emptyCells s.EmptyCellIdx).isNone := rfl

lemma mem_attemptsOf_iff {sp : List SearchPiece} {flags : Nat}
    {a : Nat × List (Nat × Nat) × Nat} :
    a ∈ attemptsOf sp flags ↔
      a.1 ∈ remainingPieces flags ∧
      a.2.1 ∈ (sp.getD a.1 defaultSearchPiece).Orientations ∧
      a.2.2 < (sp.getD a.1 defaultSearchPiece).NumBalls := by
  unfold attemptsOf
  constructor
  · intro h
    obtain ⟨i, hi, h2⟩ := List.mem_flatMap.mp h
    obtain ⟨o, ho, h3⟩ := List.mem_flatMap.mp h2
    obtain ⟨k, hk, rfl⟩ := List.mem_map.mp h3
    exact ⟨hi, ho, List.mem_range.mp hk⟩
  · rintro ⟨h1, h2, h3⟩
    exact List.mem_flatMap.mpr ⟨a.1, h1, List.mem_flatMap.mpr
      ⟨a.2.1, h2, List.mem_map.mpr ⟨a.2.2, List.mem_range.mpr h3, rfl⟩⟩⟩

lemma mem_children_struct {sp : List SearchPiece} {emptyCells : List (Nat × Nat)}
    {NumRows NumCols : Nat} {junk : Int × Int} {s child : SearchState}
    (h : child ∈ (expandState sp emptyCells NumRows NumCols junk s).children) :
    ∃ a ∈ attemptsOf sp s.RemainingPieceBitFlags,
      attemptCanPlace sp NumRows NumCols (expandTarget emptyCells junk s).1
        (expandTarget emptyCells junk s).2 s.board a = true ∧
      child = childOf sp (expandTarget emptyCells junk s).1
        (expandTarget emptyCells junk s).2 s a := by
  rw [expandState_children_eq] at h
  rcases hlast : ((remainingPieces s.RemainingPieceBitFlags).length == 1) with h1 | h1
  · rw [hlast, if_neg (by simp)] at h
    obtain ⟨a, ha, rfl⟩ := List.mem_map.mp h
    exact ⟨a, List.mem_of_mem_filter ha, List.of_mem_filter ha, rfl⟩
  · rw [hlast, if_pos rfl] at h
    cases h

/-! ## C4: the scan-exhausted assertion -/

/-- C4 (amended): in an assert-enabled build (`FAST = 0`, so `NDEBUG`
is not defined), popping a state whose target-cell scan runs off the
end of the empty-cell list aborts the whole call via the assertion,
before the placement loop runs — in particular whenever the state's
remaining-piece set is non-empty.  (In the shipped `FAST = 1` build
the assertion is compiled out; see the counterexample.) -/
theorem C4_assert_aborts (sp : List SearchPiece) (emptyCells : List (Nat × Nat))
    (NumRows NumCols : Nat) (junk : Int × Int) (s : SearchState)
    (rest : List SearchState) (sols : List Board) (stats : Stats)
    (trace : List SearchState)
    (h : scanTarget s.board emptyCells s.EmptyCellIdx = none) :
    solveAux true sp emptyCells NumRows NumCols junk (s :: rest) sols stats trace =
      none := by
  rw [solveAux_cons]
  have hf : (expandState sp emptyCells NumRows NumCols junk s).scanFailed = true := by
    rw [expandState_scanFailed, h, Option.isNone_none]
  simp [hf]

/-- Witness for C4 (amended): the assert-enabled run on the
one-blocked-cell board aborts. -/
theorem C4_assert_aborts_witness :
    solveAux true invSingles (emptyCellsOf boardOneBlocked) 1 1 (0, 0)
      [initialState boardOneBlocked 1 1] [] ⟨0, 0, 0⟩ [] = none :=
  C4_assert_aborts invSingles (emptyCellsOf boardOneBlocked) 1 1 (0, 0)
    (initialState boardOneBlocked 1 1) [] [] ⟨0, 0, 0⟩ [] (by decide)

/-- Counterexample to C4 as stated: in the shipped build (`FAST = 1`,
`NDEBUG` defined) the very first popped state of this run scans off
the end of the empty-cell list with twelve remaining pieces, and the
program does not abort: it runs to completion and returns normally. -/
theorem C4_counterexample :
    scanTarget (initialState boardOneBlocked 1 1).board (emptyCellsOf boardOneBlocked)
      (initialState boardOneBlocked 1 1).EmptyCellIdx = none ∧
    remainingPieces (initialState boardOneBlocked 1 1).RemainingPieceBitFlags ≠ [] ∧
    (SolveFull (assertEnabled shipped) invSingles boardOneBlocked 1 1 (0, 0)).map
      (fun out => out.2.2) = some [initialState boardOneBlocked 1 1] ∧
    Solve shipped invSingles boardOneBlocked 1 1 (0, 0) = some ([], none) := by
  refine ⟨by decide, by decide, by decide, by decide⟩

/-! ## C2: boards with no empty cell -/

lemma mem_boardIdx {r c : Nat} (hr : r < 16) (hc : c < 16) : (r, c) ∈ boardIdx := by
  unfold boardIdx
  rw [List.mem_flatMap]
  exact ⟨r, List.mem_range.mpr hr, List.mem_map.mpr ⟨c, List.mem_range.mpr hc, rfl⟩⟩

lemma no_empty_of_emptyCellsOf_nil {b : Board} (h : emptyCellsOf b = []) :
    ∀ r c : Nat, r < 16 → c < 16 → getCell b r c ≠ cellEmpty := by
  intro r c hr hc hcell
  have := List.filter_eq_nil_iff.mp h (r, c) (mem_boardIdx hr hc)
  simp [hcell] at this

lemma attemptCanPlace_false_no_empty {sp : List SearchPiece} {NumRows NumCols : Nat}
    {b : Board} (hnr : NumRows ≤ 16) (hnc : NumCols ≤ 16)
    (hne : ∀ r c : Nat, r < 16 → c < 16 → getCell b r c ≠ cellEmpty) {flags : Nat} :
    ∀ a ∈ attemptsOf sp flags, ∀ tR tC : Int,
      attemptCanPlace sp NumRows NumCols tR tC b a = false := by
  intro a ha tR tC
  obtain ⟨h1, h2, h3⟩ := mem_attemptsOf_iff.mp ha
  by_contra hcon
  have htrue : attemptCanPlace sp NumRows NumCols tR tC b a = true := by
    cases h : attemptCanPlace sp NumRows NumCols tR tC b a
    · exact absurd h hcon
    · rfl
  have hlen : 0 < (attemptCells sp tR tC a).length := by
    unfold attemptCells
    rw [List.length_map]
    unfold testBalls
    rw [List.length_map, List.length_range]
    omega
  obtain ⟨p, hp⟩ := List.exists_mem_of_length_pos hlen
  have hok := ballOk_iff.mp (attemptCanPlace_iff.mp htrue p hp)
  exact hne p.1.toNat p.2.toNat (by omega) (by omega) hok.2.2.2.2

lemma expandState_no_place (sp : List SearchPiece) (emptyCells : List (Nat × Nat))
    (NumRows NumCols : Nat) (junk : Int × Int) (s : SearchState)
    (h : ∀ a ∈ attemptsOf sp s.RemainingPieceBitFlags, ∀ tR tC : Int,
      attemptCanPlace sp NumRows NumCols tR tC s.board a = false) :
    (expandState sp emptyCells NumRows NumCols junk s).children = [] ∧
    (expandState sp emptyCells NumRows NumCols junk s).sols = [] := by
  have hfil : (attemptsOf sp s.RemainingPieceBitFlags).filter
      (attemptCanPlace sp NumRows NumCols (expandTarget emptyCells junk s).1
        (expandTarget emptyCells junk s).2 s.board) = [] :=
    List.filter_eq_nil_iff.mpr fun a ha => by simp [h a ha _ _]
  constructor
  · rw [expandState_children_eq, hfil]
    split <;> simp
  · rw [expandState_sols, hfil]
    split <;> simp

/-- C2 (amended): for an input board with no `Empty` cell at all — in
particular one on which every piece value is pre-placed — the shipped
build's `Solve` returns an *empty* solution list (solutions are only
recorded when the last remaining piece is placed, which never
happens), and an assert-enabled build aborts on the defensive scan
assertion.  The claim's parenthetical "remaining-piece set empty at
setup" is unsatisfiable: `CellValueToPieceIndex` yields the raw codes
3..14, so pre-placements clear only bits 3..11 and the remaining set
always contains pieces 0, 1 and 2. -/
theorem C2_no_empty_no_solutions (sp : List SearchPiece) (b : Board)
    (NumRows NumCols : Nat) (junk : Int × Int)
    (hnr : NumRows ≤ 16) (hnc : NumCols ≤ 16)
    (hempty : emptyCellsOf b = []) :
    Solve shipped sp b NumRows NumCols junk = some ([], none) ∧
    Solve ⟨false⟩ sp b NumRows NumCols junk = none := by
  have hne := no_empty_of_emptyCellsOf_nil hempty
  have hscan : scanTarget (initialState b NumRows NumCols).board (emptyCellsOf b)
      (initialState b NumRows NumCols).EmptyCellIdx = none := by
    rw [hempty]
    rfl
  constructor
  · have hnp := expandState_no_place sp (emptyCellsOf b) NumRows NumCols junk
      (initialState b NumRows NumCols)
      (attemptCanPlace_false_no_empty hnr hnc hne)
    have h1 : SolveFull false sp b NumRows NumCols junk =
        some ([], ⟨1, (expandState sp (emptyCellsOf b) NumRows NumCols junk
          (initialState b NumRows NumCols)).attempts,
          (expandState sp (emptyCellsOf b) NumRows NumCols junk
            (initialState b NumRows NumCols)).ballChecks⟩,
          [initialState b NumRows NumCols]) := by
      unfold SolveFull
      rw [solveAux_cons]
      simp only [Bool.and_false, Bool.false_eq_true, if_false]
      rw [hnp.1, hnp.2]
      simp only [List.reverse_nil, List.nil_append, List.append_nil]
      rw [solveAux_nil]
      norm_num
    show (SolveFull false sp b NumRows NumCols junk).map _ = _
    rw [h1]
    rfl
  · show (SolveFull true sp b NumRows NumCols junk).map _ = _
    have h2 : SolveFull true sp b NumRows NumCols junk = none := by
      unfold SolveFull
      exact C4_assert_aborts sp (emptyCellsOf b) NumRows NumCols junk _ _ _ _ _ hscan
    rw [h2]
    rfl

/-- Witness for C2 (amended) at the fully pre-placed board. -/
theorem C2_no_empty_no_solutions_witness :
    Solve shipped invSingles boardFullPre 1 12 (0, 0) = some ([], none) ∧
    Solve ⟨false⟩ invSingles boardFullPre 1 12 (0, 0) = none :=
  C2_no_empty_no_solutions invSingles boardFullPre 1 12 (0, 0)
    (by norm_num) (by norm_num) (by decide)

/-- Counterexample to C2 as stated: on the board with all twelve piece
values pre-placed and no `Empty` cell, the computed remaining set is
`{0, 1, 2}` (not empty), and the shipped `Solve` returns zero
solutions, not one. -/
theorem C2_counterexample :
    remainingPieces (initialFlags boardFullPre 1 12) = [0, 1, 2] ∧
    Solve shipped invSingles boardFullPre 1 12 (0, 0) = some ([], none) ∧
    ([] : List Board).length ≠ 1 :=
  ⟨by decide, by decide, by decide⟩

/-! ## C6: the child state built from a valid placement -/

/-- C6 (amended): for every valid placement made from a popped state
whose scan found the target cell at list index `idx` and coordinates
`(r, c)`, the child search state (pushed or recorded) has fill cursor
exactly `parent cursor + 1` (line `NewSearchState.EmptyCellIdx++`
increments the copied parent field — this is *not* in general greater
than `idx`, see the counterexample); all board cells other than the
placed orientation's ball cells are unchanged from the parent board,
and the ball cells are set to the placed piece's cell value. -/
theorem C6_child_state (sp : List SearchPiece) (emptyCells : List (Nat × Nat))
    (NumRows NumCols : Nat) (s : SearchState) (idx r c : Nat)
    (a : Nat × List (Nat × Nat) × Nat)
    (hwf : BoardWF s.board) (hnr : NumRows ≤ 16) (hnc : NumCols ≤ 16)
    (hscan : scanTarget s.board emptyCells s.EmptyCellIdx = some (idx, r, c))
    (hcan : attemptCanPlace sp NumRows NumCols (r : Int) (c : Int) s.board a = true) :
    (childOf sp (r : Int) (c : Int) s a).EmptyCellIdx = s.EmptyCellIdx + 1 ∧
    (∀ r' c' : Nat, ((r' : Int), (c' : Int)) ∉ attemptCells sp (r : Int) (c : Int) a →
        getCell (childOf sp (r : Int) (c : Int) s a).board r' c' =
          getCell s.board r' c') ∧
    (∀ p ∈ attemptCells sp (r : Int) (c : Int) a,
        getCell (childOf sp (r : Int) (c : Int) s a).board p.1.toNat p.2.toNat =
          PieceIndexToCellValue a.1) := by
  refine ⟨childOf_cursor sp _ _ s a, ?_, ?_⟩
  · intro r' c' hnotmem
    rw [getCell_childOf hwf hnr hnc hcan r' c', if_neg hnotmem]
  · intro p hp
    have hb := attemptCells_bounds hnr hnc hcan p hp
    have hpe : ((p.1.toNat : Int), (p.2.toNat : Int)) = p := by
      apply Prod.ext <;> dsimp only <;> omega
    rw [getCell_childOf hwf hnr hnc hcan p.1.toNat p.2.toNat, hpe, if_pos hp]

/-- Witness for C6 (amended) at the `c6State` placement. -/
theorem C6_child_state_witness :
    (childOf invMixed 0 12 c6State c6Attempt).EmptyCellIdx = c6State.EmptyCellIdx + 1 ∧
    (∀ r' c' : Nat, ((r' : Int), (c' : Int)) ∉ attemptCells invMixed 0 12 c6Attempt →
        getCell (childOf invMixed 0 12 c6State c6Attempt).board r' c' =
          getCell c6State.board r' c') ∧
    (∀ p ∈ attemptCells invMixed 0 12 c6Attempt,
        getCell (childOf invMixed 0 12 c6State c6Attempt).board p.1.toNat p.2.toNat =
          PieceIndexToCellValue c6Attempt.1) :=
  C6_child_state invMixed (emptyCellsOf boardRow13) 1 13 c6State 3 0 12 c6Attempt
    (by decide) (by norm_num) (by norm_num) (by decide) (by decide)

/-- Counterexample to C6 as stated: while solving `boardRow13` with
`invMixed`, the state `c6State` is popped, its scan finds the target
cell at list index 3, the attempt `c6Attempt` validly places — and
the resulting (recorded) child state's fill cursor is 3, which is
*not* strictly greater than the target's list index 3. -/
theorem C6_counterexample :
    (SolveFull (assertEnabled shipped) invMixed boardRow13 1 13 (0, 0)).map
      (fun out => decide (c6State ∈ out.2.2)) = some true ∧
    scanTarget c6State.board (emptyCellsOf boardRow13) c6State.EmptyCellIdx =
      some (3, 0, 12) ∧
    c6Attempt ∈ attemptsOf invMixed c6State.RemainingPieceBitFlags ∧
    attemptCanPlace invMixed 1 13 0 12 c6State.board c6Attempt = true ∧
    (childOf invMixed 0 12 c6State c6Attempt).EmptyCellIdx = 3 ∧
    ¬ (3 < (childOf invMixed 0 12 c6State c6Attempt).EmptyCellIdx) :=
  ⟨by decide, by decide, by decide, by decide, by decide, by decide⟩

/-! ## C9: termination -/

lemma stackMeasure_cons_pos (sp : List SearchPiece) (s : SearchState)
    (rest : List SearchState) : 0 < stackMeasure sp (s :: rest) := by
  unfold stackMeasure
  rw [List.map_cons, List.sum_cons]
  have := pow_pos (show 0 < maxAttempts sp + 1 by omega)
    (remainingPieces s.RemainingPieceBitFlags).length
  omega

lemma solveAux_no_assert_isSome (sp : List SearchPiece) (emptyCells : List (Nat × Nat))
    (NumRows NumCols : Nat) (junk : Int × Int) :
    ∀ (n : Nat) (stack : List SearchState), stackMeasure sp stack ≤ n →
      ∀ (sols : List Board) (stats : Stats) (trace : List SearchState),
      (solveAux false sp emptyCells NumRows NumCols junk stack sols stats trace).isSome =
        true := by
  intro n
  induction n with
  | zero =>
    intro stack hm sols stats trace
    match stack with
    | [] => rw [solveAux_nil]; rfl
    | s :: rest => exact absurd hm (by have := stackMeasure_cons_pos sp s rest; omega)
  | succ n ih =>
    intro stack hm sols stats trace
    match stack with
    | [] => rw [solveAux_nil]; rfl
    | s :: rest =>
      rw [solveAux_cons]
      simp only [Bool.and_false, Bool.false_eq_true, if_false]
      have hlt := stackMeasure_step_lt sp emptyCells NumRows NumCols junk s rest
      exact ih _ (by omega) _ _ _

/-- C9: the search always terminates — every child state pushed by an
expansion has strictly fewer remaining pieces than its parent, and
the shipped `Solve` always runs the loop to completion and returns a
result for every input. -/
theorem C9_termination :
    (∀ (sp : List SearchPiece) (emptyCells : List (Nat × Nat)) (NumRows NumCols : Nat)
        (junk : Int × Int) (s : SearchState),
        ∀ child ∈ (expandState sp emptyCells NumRows NumCols junk s).children,
        (remainingPieces child.RemainingPieceBitFlags).length <
          (remainingPieces s.RemainingPieceBitFlags).length) ∧
    (∀ (sp : List SearchPiece) (b : Board) (NumRows NumCols : Nat) (junk : Int × Int),
        (Solve shipped sp b NumRows NumCols junk).isSome = true) := by
  constructor
  · intro sp emptyCells NumRows NumCols junk s child hchild
    obtain ⟨a, ha, _, rfl⟩ := mem_children_struct hchild
    have hmem : a.1 ∈ remainingPieces s.RemainingPieceBitFlags := mem_attemptsOf ha
    rw [childOf_flags, length_remainingPieces_clearPieceBit hmem]
    have := List.length_pos_of_mem hmem
    omega
  · intro sp b NumRows NumCols junk
    have h : (SolveFull false sp b NumRows NumCols junk).isSome = true :=
      solveAux_no_assert_isSome sp (emptyCellsOf b) NumRows NumCols junk _ _
        (le_refl _) _ _ _
    obtain ⟨out, hout⟩ := Option.isSome_iff_exists.mp h
    show ((SolveFull false sp b NumRows NumCols junk).map _).isSome = true
    rw [hout]
    rfl

/-- Witness for C9 at a concrete expansion and a concrete run. -/
theorem C9_termination_witness :
    (remainingPieces c9Child.RemainingPieceBitFlags).length <
      (remainingPieces (initialState boardRow13 1 13).RemainingPieceBitFlags).length ∧
    (Solve shipped invMixed boardRow13 1 13 (0, 0)).isSome = true :=
  ⟨C9_termination.1 invMixed (emptyCellsOf boardRow13) 1 13 (0, 0)
      (initialState boardRow13 1 13) c9Child (by decide),
   C9_termination.2 invMixed boardRow13 1 13 (0, 0)⟩

/-! ## C3: the statistics counters -/

lemma solveAux_statsTrace (assertOn : Bool) (sp : List SearchPiece)
    (emptyCells : List (Nat × Nat)) (NumRows NumCols : Nat) (junk : Int × Int) :
    ∀ (n : Nat) (stack : List SearchState), stackMeasure sp stack ≤ n →
    ∀ (sols : List Board) (stats : Stats) (trace : List SearchState)
      (out : List Board × Stats × List SearchState),
      solveAux assertOn sp emptyCells NumRows NumCols junk stack sols stats trace =
        some out →
      ∃ post, out.2.2 = trace ++ post ∧
        out.2.1.boardStates = stats.boardStates + post.length ∧
        out.2.1.orientations = stats.orientations +
          (post.map fun s => (attemptsOf sp s.RemainingPieceBitFlags).length).sum ∧
        out.2.1.balls = stats.balls +
          (post.map fun s =>
            (expandState sp emptyCells NumRows NumCols junk s).ballChecks).sum := by
  intro n
  induction n with
  | zero =>
    intro stack hm sols stats trace out hout
    match stack with
    | [] =>
      rw [solveAux_nil] at hout
      cases hout
      exact ⟨[], by simp⟩
    | s :: rest => exact absurd hm (by have := stackMeasure_cons_pos sp s rest; omega)
  | succ n ih =>
    intro stack hm sols stats trace out hout
    match stack with
    | [] =>
      rw [solveAux_nil] at hout
      cases hout
      exact ⟨[], by simp⟩
    | s :: rest =>
      rw [solveAux_cons] at hout
      by_cases habort :
          ((expandState sp emptyCells NumRows NumCols junk s).scanFailed && assertOn) = true
      · rw [if_pos habort] at hout
        cases hout
      · rw [if_neg habort] at hout
        have hlt := stackMeasure_step_lt sp emptyCells NumRows NumCols junk s rest
        obtain ⟨post, hp1, hp2, hp3, hp4⟩ := ih _ (by omega) _ _ _ _ hout
        dsimp only at hp2 hp3 hp4
        refine ⟨s :: post, ?_, ?_, ?_, ?_⟩
        · rw [hp1, List.append_assoc]
          rfl
        · rw [hp2]
          simp only [List.length_cons]
          omega
        · rw [hp3, List.map_cons, List.sum_cons, expandState_attempts]
          omega
        · rw [hp4, List.map_cons, List.sum_cons]
          omega

/-- C3 (amended): in a `WITH_STATS` (`FAST = 0`) build the three
counters are written and satisfy: `boardStates` is the number of
states popped; `orientations` is the sum, over popped states, of the
number of (remaining piece, orientation, anchor ball) triples; and
`balls` is the sum of the ball checks each popped state's placement
loop performs.  In the shipped `FAST = 1` build the counters are not
written at all (see the counterexample).  The final conjunct states
monotonicity: each loop iteration only increases the accumulated
counters. -/
theorem C3_stats_counters (sp : List SearchPiece) (b : Board) (NumRows NumCols : Nat)
    (junk : Int × Int) :
    (Solve ⟨false⟩ sp b NumRows NumCols junk =
      (SolveFull true sp b NumRows NumCols junk).map fun out => (out.1, some out.2.1)) ∧
    ((SolveFull true sp b NumRows NumCols junk).map fun out => out.2.1.boardStates) =
      ((SolveFull true sp b NumRows NumCols junk).map fun out => out.2.2.length) ∧
    ((SolveFull true sp b NumRows NumCols junk).map fun out => out.2.1.orientations) =
      ((SolveFull true sp b NumRows NumCols junk).map fun out =>
        (out.2.2.map fun s => (attemptsOf sp s.RemainingPieceBitFlags).length).sum) ∧
    ((SolveFull true sp b NumRows NumCols junk).map fun out => out.2.1.balls) =
      ((SolveFull true sp b NumRows NumCols junk).map fun out =>
        (out.2.2.map fun s =>
          (expandState sp (emptyCellsOf b) NumRows NumCols junk s).ballChecks).sum) ∧
    (∀ (stack : List SearchState) (sols : List Board) (stats : Stats)
        (trace : List SearchState) (out : List Board × Stats × List SearchState),
      solveAux true sp (emptyCellsOf b) NumRows NumCols junk stack sols stats trace =
        some out →
      stats.boardStates ≤ out.2.1.boardStates ∧
      stats.orientations ≤ out.2.1.orientations ∧ stats.balls ≤ out.2.1.balls) := by
  have hmain : ∀ out, SolveFull true sp b NumRows NumCols junk = some out →
      out.2.2.length = out.2.1.boardStates ∧
      (out.2.2.map fun s => (attemptsOf sp s.RemainingPieceBitFlags).length).sum =
        out.2.1.orientations ∧
      (out.2.2.map fun s =>
        (expandState sp (emptyCellsOf b) NumRows NumCols junk s).ballChecks).sum =
        out.2.1.balls := by
    intro out hout
    obtain ⟨post, hp1, hp2, hp3, hp4⟩ := solveAux_statsTrace true sp (emptyCellsOf b)
      NumRows NumCols junk _ _ (le_refl _) _ _ _ _ hout
    rw [List.nil_append] at hp1
    subst hp1
    dsimp only at hp2 hp3 hp4
    exact ⟨by omega, by omega, by omega⟩
  refine ⟨?_, ?_, ?_, ?_, ?_⟩
  · show (SolveFull true sp b NumRows NumCols junk).map _ = _
    cases hout : SolveFull true sp b NumRows NumCols junk
    · rfl
    · rfl
  · cases hout : SolveFull true sp b NumRows NumCols junk with
    | none => rfl
    | some out => simp [(hmain out hout).1]
  · cases hout : SolveFull true sp b NumRows NumCols junk with
    | none => rfl
    | some out => simp [(hmain out hout).2.1]
  · cases hout : SolveFull true sp b NumRows NumCols junk with
    | none => rfl
    | some out => simp [(hmain out hout).2.2]
  · intro stack sols stats trace out hout
    obtain ⟨post, hp1, hp2, hp3, hp4⟩ := solveAux_statsTrace true sp (emptyCellsOf b)
      NumRows NumCols junk _ _ (le_refl _) _ _ _ _ hout
    refine ⟨by omega, by omega, by omega⟩



/-- Witness for C3 (amended): the counter/pop-count equality on a
concrete run, and the monotonicity conjunct applied to one concrete
loop iteration (popping `c6State` bumps the counters ⟨5,6,7⟩ to
⟨6,7,8⟩). -/
theorem C3_stats_counters_witness :
    (((SolveFull true invMixed boardRow13 1 13 (0, 0)).map fun out =>
        out.2.1.boardStates) =
      ((SolveFull true invMixed boardRow13 1 13 (0, 0)).map fun out =>
        out.2.2.length)) ∧
    ((⟨5, 6, 7⟩ : Stats).boardStates ≤
        (([boardOfRows [[3, 4, 5, 6, 7, 8, 9, 10, 11, 3, 5, 3, 4]]], (⟨6, 7, 8⟩ : Stats),
          [c6State]) : List Board × Stats × List SearchState).2.1.boardStates ∧
      (⟨5, 6, 7⟩ : Stats).orientations ≤
        (([boardOfRows [[3, 4, 5, 6, 7, 8, 9, 10, 11, 3, 5, 3, 4]]], (⟨6, 7, 8⟩ : Stats),
          [c6State]) : List Board × Stats × List SearchState).2.1.orientations ∧
      (⟨5, 6, 7⟩ : Stats).balls ≤
        (([boardOfRows [[3, 4, 5, 6, 7, 8, 9, 10, 11, 3, 5, 3, 4]]], (⟨6, 7, 8⟩ : Stats),
          [c6State]) : List Board × Stats × List SearchState).2.1.balls) :=
  ⟨(C3_stats_counters invMixed boardRow13 1 13 (0, 0)).2.1,
   (C3_stats_counters invMixed boardRow13 1 13 (0, 0)).2.2.2.2 [c6State] [] ⟨5, 6, 7⟩ []
     ([boardOfRows [[3, 4, 5, 6, 7, 8, 9, 10, 11, 3, 5, 3, 4]]], ⟨6, 7, 8⟩, [c6State])
     (by decide)⟩

/-- Counterexample to C3 as stated: in the shipped `FAST = 1` build
(`WITH_STATS = 0`) `Solve` does not write the three counters at all —
the caller observes them unwritten — although this run pops ten
states. -/
theorem C3_counterexample :
    (Solve shipped invMixed boardRow13 1 13 (0, 0)).map (fun o => o.2) = some none ∧
    (SolveFull (assertEnabled shipped) invMixed boardRow13 1 13 (0, 0)).map
      (fun out => out.2.2.length) = some 10 :=
  ⟨by decide, by decide⟩

/-! ## Empty-cell list and scan lemmas -/

lemma mem_boardIdx_iff {p : Nat × Nat} : p ∈ boardIdx ↔ p.1 < 16 ∧ p.2 < 16 := by
  constructor
  · intro h
    unfold boardIdx at h
    obtain ⟨r, hr, h2⟩ := List.mem_flatMap.mp h
    obtain ⟨c, hc, rfl⟩ := List.mem_map.mp h2
    exact ⟨List.mem_range.mp hr, List.mem_range.mp hc⟩
  · intro ⟨h1, h2⟩
    exact mem_boardIdx h1 h2

lemma mem_emptyCellsOf {b : Board} {p : Nat × Nat} :
    p ∈ emptyCellsOf b ↔ p ∈ boardIdx ∧ getCell b p.1 p.2 = cellEmpty := by
  unfold emptyCellsOf
  rw [List.mem_filter]
  simp

set_option maxRecDepth 40000 in
lemma boardIdx_nodup : boardIdx.Nodup := by decide

lemma emptyCellsOf_nodup (b : Board) : (emptyCellsOf b).Nodup :=
  boardIdx_nodup.filter _

lemma getCell_outside {b : Board} (hwf : BoardWF b) {r c : Nat}
    (h : ¬(r < 16 ∧ c < 16)) : getCell b r c = cellInvalid := by
  unfold getCell
  rcases Nat.lt_or_ge r 16 with hr | hr
  · have hc : 16 ≤ c := by omega
    rw [List.getD_eq_getElem?_getD (b.getD r []) c]
    rw [List.getElem?_eq_none (by rw [rowlen_of_wf hwf r hr]; omega), Option.getD_none]
  · rw [List.getD_eq_getElem?_getD b r, List.getElem?_eq_none (by rw [hwf.1]; omega),
      Option.getD_none]
    rfl

lemma empty_mem_emptyCellsOf {b : Board} (hwf : BoardWF b) {r c : Nat}
    (h : getCell b r c = cellEmpty) : (r, c) ∈ emptyCellsOf b := by
  rw [mem_emptyCellsOf, mem_boardIdx_iff]
  refine ⟨⟨?_, ?_⟩, h⟩ <;> {
    by_contra hcon
    have : getCell b r c = cellInvalid := getCell_outside hwf (by omega)
    rw [this] at h
    cases h
  }

lemma board_ext {b1 b2 : Board} (h1 : BoardWF b1) (h2 : BoardWF b2)
    (h : ∀ r c : Nat, r < 16 → c < 16 → getCell b1 r c = getCell b2 r c) : b1 = b2 := by
  apply List.ext_getElem (by rw [h1.1, h2.1])
  intro r hr1 hr2
  have hr : r < 16 := by rw [h1.1] at hr1; exact hr1
  apply List.ext_getElem
  · have e1 : b1[r] = b1.getD r [] := by
      rw [List.getD_eq_getElem?_getD, List.getElem?_eq_getElem hr1, Option.getD_some]
    have e2 : b2[r] = b2.getD r [] := by
      rw [List.getD_eq_getElem?_getD, List.getElem?_eq_getElem hr2, Option.getD_some]
    rw [e1, e2, rowlen_of_wf h1 r hr, rowlen_of_wf h2 r hr]
  · intro c hc1 hc2
    have hc : c < 16 := by
      have e1 : b1[r] = b1.getD r [] := by
        rw [List.getD_eq_getElem?_getD, List.getElem?_eq_getElem hr1, Option.getD_some]
      rw [e1, rowlen_of_wf h1 r hr] at hc1
      exact hc1
    have := h r c hr hc
    unfold getCell at this
    have e1 : b1.getD r [] = b1[r] := by
      rw [List.getD_eq_getElem?_getD, List.getElem?_eq_getElem hr1, Option.getD_some]
    have e2 : b2.getD r [] = b2[r] := by
      rw [List.getD_eq_getElem?_getD, List.getElem?_eq_getElem hr2, Option.getD_some]
    rw [e1, e2] at this
    rw [List.getD_eq_getElem?_getD, List.getD_eq_getElem?_getD,
      List.getElem?_eq_getElem hc1, List.getElem?_eq_getElem hc2] at this
    simpa using this

lemma scanFrom_eq_none {b : Board} :
    ∀ {l : List (Nat × Nat)} {i : Nat},
      scanFrom b l i = none ↔ ∀ p ∈ l, getCell b p.1 p.2 ≠ cellEmpty := by
  intro l
  induction l with
  | nil => intro i; simp [scanFrom]
  | cons p rest ih =>
    intro i
    unfold scanFrom
    by_cases h : getCell b p.1 p.2 = cellEmpty
    · rw [if_pos (by simp [h])]
      simp [h]
    · rw [if_neg (by simp [h])]
      rw [ih]
      simp only [List.mem_cons]
      constructor
      · intro hall q hq
        rcases hq with rfl | hq
        · exact h
        · exact hall q hq
      · intro hall q hq
        exact hall q (Or.inr hq)

lemma scanFrom_spec {b : Board} :
    ∀ {l : List (Nat × Nat)} {i idx r c : Nat},
      scanFrom b l i = some (idx, r, c) →
      i ≤ idx ∧ idx - i < l.length ∧ l.getD (idx - i) (0, 0) = (r, c) ∧
        getCell b r c = cellEmpty ∧
        ∀ j, j < idx - i →
          getCell b (l.getD j (0, 0)).1 (l.getD j (0, 0)).2 ≠ cellEmpty := by
  intro l
  induction l with
  | nil => intro i idx r c h; cases h
  | cons p rest ih =>
    intro i idx r c h
    unfold scanFrom at h
    by_cases hp : getCell b p.1 p.2 = cellEmpty
    · rw [if_pos (by simp [hp])] at h
      injection h with h
      obtain ⟨rfl, rfl, rfl⟩ : idx = i ∧ r = p.1 ∧ c = p.2 := by
        injection h with h1 h2
        injection h2 with h2 h3
        exact ⟨h1.symm, h2.symm, h3.symm⟩
      refine ⟨le_refl _, by simp, by simp, hp, ?_⟩
      intro j hj
      omega
    · rw [if_neg (by simp [hp])] at h
      obtain ⟨h1, h2, h3, h4, h5⟩ := ih h
      have hidx : i < idx := by omega
      refine ⟨by omega, ?_, ?_, h4, ?_⟩
      · simp only [List.length_cons]
        omega
      · have : idx - i = (idx - (i + 1)) + 1 := by omega
        rw [this]
        simpa using h3
      · intro j hj
        match j with
        | 0 => simpa using hp
        | j + 1 =>
          have : j < idx - (i + 1) := by omega
          simpa using h5 j this

/-! ## Properties of a valid placement attempt -/

/-- The covered cells of an attempt as natural-number coordinates. -/
def attemptCellsNat (sp : List SearchPiece) (tR tC : Int)
    (a : Nat × List (Nat × Nat) × Nat) : List (Nat × Nat) :=
  (attemptCells sp tR tC a).map fun p => (p.1.toNat, p.2.toNat)

lemma getD_eq_getElem_of_lt {α : Type} (l : List α) (d : α) {k : Nat} (h : k < l.length) :
    l.getD k d = l[k] := by
  rw [List.getD_eq_getElem?_getD, List.getElem?_eq_getElem h, Option.getD_some]

lemma attempt_piece_good {sp : List SearchPiece} {flags : Nat}
    {a : Nat × List (Nat × Nat) × Nat} (hsp : SPGood sp) (ha : a ∈ attemptsOf sp flags) :
    a.2.1.length = (sp.getD a.1 defaultSearchPiece).NumBalls ∧ a.2.1.Nodup ∧
      1 ≤ (sp.getD a.1 defaultSearchPiece).NumBalls := by
  obtain ⟨h1, h2, h3⟩ := mem_attemptsOf_iff.mp ha
  rcases Nat.lt_or_ge a.1 sp.length with hlt | hge
  · have hget : sp.getD a.1 defaultSearchPiece = sp[a.1] := getD_eq_getElem_of_lt sp _ hlt
    rw [hget] at h2 ⊢
    have hmem : sp[a.1] ∈ sp := List.getElem_mem hlt
    obtain ⟨ho, hnb, _⟩ := hsp _ hmem
    exact ⟨(ho _ h2).1, (ho _ h2).2, hnb⟩
  · exfalso
    have hget : sp.getD a.1 defaultSearchPiece = defaultSearchPiece := by
      rw [List.getD_eq_getElem?_getD, List.getElem?_eq_none hge, Option.getD_none]
    rw [hget] at h2
    cases h2

lemma testBalls_attempt {sp : List SearchPiece} {flags : Nat}
    {a : Nat × List (Nat × Nat) × Nat} (hsp : SPGood sp) (ha : a ∈ attemptsOf sp flags) :
    testBalls a.2.1 (sp.getD a.1 defaultSearchPiece).NumBalls = a.2.1 := by
  rw [← (attempt_piece_good hsp ha).1]
  exact testBalls_eq_self a.2.1

lemma attemptCells_eq {sp : List SearchPiece} {flags : Nat} {tR tC : Int}
    {a : Nat × List (Nat × Nat) × Nat} (hsp : SPGood sp) (ha : a ∈ attemptsOf sp flags) :
    attemptCells sp tR tC a = a.2.1.map (ballAbs tR tC (a.2.1.getD a.2.2 (0, 0))) := by
  unfold attemptCells
  rw [testBalls_attempt hsp ha]

lemma ballAbs_injective (tR tC : Int) (anchor : Nat × Nat) :
    Function.Injective (ballAbs tR tC anchor) := by
  intro p q h
  unfold ballAbs at h
  rw [Prod.mk.injEq] at h
  obtain ⟨p1, p2⟩ := p
  obtain ⟨q1, q2⟩ := q
  simp only at h
  rw [Prod.mk.injEq]
  omega

lemma attemptCells_nodup {sp : List SearchPiece} {flags : Nat} {tR tC : Int}
    {a : Nat × List (Nat × Nat) × Nat} (hsp : SPGood sp) (ha : a ∈ attemptsOf sp flags) :
    (attemptCells sp tR tC a).Nodup := by
  rw [attemptCells_eq hsp ha]
  exact List.Nodup.map (ballAbs_injective tR tC _) (attempt_piece_good hsp ha).2.1

lemma attemptCellsNat_nodup {sp : List SearchPiece} {flags : Nat} {NumRows NumCols : Nat}
    {tR tC : Int} {b : Board} {a : Nat × List (Nat × Nat) × Nat}
    (hsp : SPGood sp) (ha : a ∈ attemptsOf sp flags)
    (hcan : attemptCanPlace sp NumRows NumCols tR tC b a = true) :
    (attemptCellsNat sp tR tC a).Nodup := by
  unfold attemptCellsNat
  apply List.Nodup.map_on
  · intro x hx y hy hxy
    have hxb := ballOk_iff.mp (attemptCanPlace_iff.mp hcan x hx)
    have hyb := ballOk_iff.mp (attemptCanPlace_iff.mp hcan y hy)
    rw [Prod.mk.injEq] at hxy
    obtain ⟨x1, x2⟩ := x
    obtain ⟨y1, y2⟩ := y
    simp only at hxb hyb hxy ⊢
    rw [Prod.mk.injEq]
    omega
  · exact attemptCells_nodup hsp ha

lemma mem_attemptCellsNat_iff {sp : List SearchPiece}
    {NumRows NumCols : Nat} {tR tC : Int} {b : Board}
    {a : Nat × List (Nat × Nat) × Nat}
    (hcan : attemptCanPlace sp NumRows NumCols tR tC b a = true)
    (r c : Nat) :
    (r, c) ∈ attemptCellsNat sp tR tC a ↔
      ((r : Int), (c : Int)) ∈ attemptCells sp tR tC a := by
  unfold attemptCellsNat
  constructor
  · intro h
    obtain ⟨p, hp, hpe⟩ := List.mem_map.mp h
    have hpb := ballOk_iff.mp (attemptCanPlace_iff.mp hcan p hp)
    rw [Prod.mk.injEq] at hpe
    have e : ((r : Int), (c : Int)) = p := by
      rw [Prod.mk.injEq]
      omega
    rw [e]
    exact hp
  · intro h
    refine List.mem_map.mpr ⟨_, h, ?_⟩
    simp

/-- Pointwise description of the child board, in `Nat` coordinates. -/
lemma getCell_childOf_nat {sp : List SearchPiece} {flags : Nat} {NumRows NumCols : Nat}
    {tR tC : Int} {s : SearchState} {a : Nat × List (Nat × Nat) × Nat}
    (hwf : BoardWF s.board) (hnr : NumRows ≤ 16) (hnc : NumCols ≤ 16)
    (ha : a ∈ attemptsOf sp flags)
    (hcan : attemptCanPlace sp NumRows NumCols tR tC s.board a = true)
    (r c : Nat) :
    getCell (childOf sp tR tC s a).board r c =
      if (r, c) ∈ attemptCellsNat sp tR tC a then PieceIndexToCellValue a.1
      else getCell s.board r c := by
  rw [getCell_childOf hwf hnr hnc hcan r c]
  by_cases h : ((r : Int), (c : Int)) ∈ attemptCells sp tR tC a
  · rw [if_pos h, if_pos ((mem_attemptCellsNat_iff hcan r c).mpr h)]
  · rw [if_neg h, if_neg (fun hcon => h ((mem_attemptCellsNat_iff hcan r c).mp hcon))]

lemma pieceValue_ne_empty (i : Nat) : PieceIndexToCellValue i ≠ cellEmpty := by
  unfold PieceIndexToCellValue cellEmpty
  omega

/-- The child board's empty-cell list: the parent's, minus the cells
the placement covered. -/
lemma emptyCellsOf_childOf {sp : List SearchPiece} {flags : Nat} {NumRows NumCols : Nat}
    {tR tC : Int} {s : SearchState} {a : Nat × List (Nat × Nat) × Nat}
    (hwf : BoardWF s.board) (hnr : NumRows ≤ 16) (hnc : NumCols ≤ 16)
    (ha : a ∈ attemptsOf sp flags)
    (hcan : attemptCanPlace sp NumRows NumCols tR tC s.board a = true) :
    emptyCellsOf (childOf sp tR tC s a).board =
      (emptyCellsOf s.board).filter
        fun p => decide (p ∉ attemptCellsNat sp tR tC a) := by
  unfold emptyCellsOf
  rw [List.filter_filter]
  apply List.filter_congr
  intro p _
  obtain ⟨r, c⟩ := p
  rw [getCell_childOf_nat hwf hnr hnc ha hcan r c]
  by_cases h : (r, c) ∈ attemptCellsNat sp tR tC a
  · rw [if_pos h]
    simp [pieceValue_ne_empty a.1, h]
  · rw [if_neg h]
    simp [h]


/-! ## Counting the empty cells across a placement -/

lemma attemptCellsNat_subset_empty {sp : List SearchPiece} {NumRows NumCols : Nat}
    {tR tC : Int} {b : Board} {a : Nat × List (Nat × Nat) × Nat}
    (hwf : BoardWF b)
    (hcan : attemptCanPlace sp NumRows NumCols tR tC b a = true) :
    ∀ p ∈ attemptCellsNat sp tR tC a, p ∈ emptyCellsOf b := by
  intro p hp
  obtain ⟨q, hq, rfl⟩ := List.mem_map.mp hp
  have hqb := ballOk_iff.mp (attemptCanPlace_iff.mp hcan q hq)
  exact empty_mem_emptyCellsOf hwf hqb.2.2.2.2

lemma length_filter_not_mem {l sub : List (Nat × Nat)}
    (hl : l.Nodup) (hsub : sub.Nodup) (hss : ∀ x ∈ sub, x ∈ l) :
    (l.filter fun x => decide (x ∉ sub)).length = l.length - sub.length := by
  have h1 : (l.filter fun x => decide (x ∉ sub)).toFinset = l.toFinset \ sub.toFinset := by
    ext x
    simp [List.mem_toFinset, List.mem_filter]
  have h2 : (l.filter fun x => decide (x ∉ sub)).length =
      (l.filter fun x => decide (x ∉ sub)).toFinset.card :=
    (List.toFinset_card_of_nodup (hl.filter _)).symm
  rw [h2, h1, Finset.card_sdiff]
  · rw [List.toFinset_card_of_nodup hl, List.toFinset_card_of_nodup hsub]
  · intro x hx
    rw [List.mem_toFinset] at hx ⊢
    exact hss x hx

lemma nodup_subset_length_le {α : Type} [DecidableEq α] {l sub : List α}
    (hl : l.Nodup) (hsub : sub.Nodup) (hss : ∀ x ∈ sub, x ∈ l) :
    sub.length ≤ l.length := by
  rw [← List.toFinset_card_of_nodup hl, ← List.toFinset_card_of_nodup hsub]
  apply Finset.card_le_card
  intro x hx
  rw [List.mem_toFinset] at hx ⊢
  exact hss x hx

lemma sum_map_erase {l : List Nat} {i : Nat} (f : Nat → Nat) (h : i ∈ l) :
    ((l.erase i).map f).sum + f i = (l.map f).sum := by
  have hperm : l.Perm (i :: l.erase i) := List.perm_cons_erase h
  rw [List.Perm.sum_eq (hperm.map f), List.map_cons, List.sum_cons]
  omega

lemma remainingPieces_clearPieceBit_erase (flags i : Nat) :
    remainingPieces (clearPieceBit flags i) = (remainingPieces flags).erase i := by
  rw [remainingPieces_clearPieceBit flags i,
    List.Nodup.erase_eq_filter (nodup_remainingPieces flags)]
  apply List.filter_congr
  intro j _
  cases hji : (j == i) <;> simp_all

lemma target_mem_attemptCells {sp : List SearchPiece} {flags : Nat}
    {a : Nat × List (Nat × Nat) × Nat} (hsp : SPGood sp)
    (ha : a ∈ attemptsOf sp flags) (tR tC : Int) :
    (tR, tC) ∈ attemptCells sp tR tC a := by
  rw [attemptCells_eq hsp ha]
  have h3 := (mem_attemptsOf_iff.mp ha).2.2
  have hlen := (attempt_piece_good hsp ha).1
  have hmem : a.2.1.getD a.2.2 (0, 0) ∈ a.2.1 := by
    rw [getD_eq_getElem_of_lt _ _ (by omega)]
    exact List.getElem_mem _
  refine List.mem_map.mpr ⟨a.2.1.getD a.2.2 (0, 0), hmem, ?_⟩
  unfold ballAbs
  rw [Prod.mk.injEq]
  constructor <;> ring

lemma attemptCellsNat_length {sp : List SearchPiece} {flags : Nat} {tR tC : Int}
    {a : Nat × List (Nat × Nat) × Nat} (hsp : SPGood sp)
    (ha : a ∈ attemptsOf sp flags) :
    (attemptCellsNat sp tR tC a).length = (sp.getD a.1 defaultSearchPiece).NumBalls := by
  unfold attemptCellsNat
  rw [List.length_map, attemptCells_eq hsp ha, List.length_map,
    (attempt_piece_good hsp ha).1]

lemma getD_drop_zero {α : Type} (l : List α) (d : α) {k : Nat} (hk : k < l.length) :
    (l.drop k).getD 0 d = l.getD k d := by
  rw [getD_eq_getElem_of_lt _ _ (by rw [List.length_drop]; omega),
    getD_eq_getElem_of_lt _ _ hk, List.getElem_drop]
  simp

/-- A valid placement from a well-formed state yields a well-formed
child state. -/
lemma stateWF_childOf {sp : List SearchPiece} {input : Board} {NumRows NumCols : Nat}
    {s : SearchState} {idx r c : Nat} {a : Nat × List (Nat × Nat) × Nat}
    (hsp : SPGood sp) (hwf : StateWF sp input s)
    (hnr : NumRows ≤ 16) (hnc : NumCols ≤ 16)
    (hscan : scanTarget s.board (emptyCellsOf input) s.EmptyCellIdx = some (idx, r, c))
    (ha : a ∈ attemptsOf sp s.RemainingPieceBitFlags)
    (hcan : attemptCanPlace sp NumRows NumCols (r : Int) (c : Int) s.board a = true) :
    StateWF sp input (childOf sp (r : Int) (c : Int) s a) := by
  obtain ⟨hb, hext, hsub, hcur, hcnt⟩ := hwf
  have hget := getCell_childOf_nat hb hnr hnc ha hcan
  obtain ⟨hs1, hs2, hs3, hs4, hs5⟩ := scanFrom_spec hscan
  refine ⟨childOf_board_wf hb, ?_, ?_, ?_, ?_⟩
  · -- non-empty input cells unchanged
    intro r' c' hr' hc' hne
    rw [hget r' c']
    by_cases hmem : (r', c') ∈ attemptCellsNat sp (r : Int) (c : Int) a
    · exfalso
      have hin := attemptCellsNat_subset_empty hb hcan _ hmem
      rw [mem_emptyCellsOf] at hin
      exact hne (hsub r' c' hr' hc' hin.2)
    · rw [if_neg hmem]
      exact hext r' c' hr' hc' hne
  · -- empty cells of the child were empty on the input
    intro r' c' hr' hc' hemp
    rw [hget r' c'] at hemp
    by_cases hmem : (r', c') ∈ attemptCellsNat sp (r : Int) (c : Int) a
    · rw [if_pos hmem] at hemp
      exact absurd hemp (pieceValue_ne_empty a.1)
    · rw [if_neg hmem] at hemp
      exact hsub r' c' hr' hc' hemp
  · -- cursor invariant
    intro k hk hklen
    rw [childOf_cursor] at hk
    rw [hget]
    by_cases hmem : (((emptyCellsOf input).getD k (0, 0)).1,
        ((emptyCellsOf input).getD k (0, 0)).2) ∈ attemptCellsNat sp (r : Int) (c : Int) a
    · rw [if_pos hmem]
      exact pieceValue_ne_empty a.1
    · rw [if_neg hmem]
      rcases Nat.lt_or_ge k s.EmptyCellIdx with hk' | hk'
      · exact hcur k hk' hklen
      · have hkc : k = s.EmptyCellIdx := by omega
        rcases Nat.lt_or_ge s.EmptyCellIdx idx with hlt | hge
        · -- position k was skipped by the scan, so it is filled already
          have h5 := hs5 0 (by omega)
          rw [getD_drop_zero _ _ (hkc ▸ hklen)] at h5
          rw [hkc]
          exact h5
        · -- k = idx: the target cell itself, which the placement paints
          exfalso
          have hcell : (emptyCellsOf input).getD k (0, 0) = (r, c) := by
            rw [hkc, ← getD_drop_zero (emptyCellsOf input) (0, 0) (hkc ▸ hklen)]
            have h0 : idx - s.EmptyCellIdx = 0 := by omega
            rw [h0] at hs3
            exact hs3
          apply hmem
          rw [hcell]
          rw [mem_attemptCellsNat_iff hcan]
          exact target_mem_attemptCells hsp ha _ _
  · -- count invariant
    have hsubE := attemptCellsNat_subset_empty hb hcan
    have hnodE := emptyCellsOf_nodup s.board
    have hnodC := attemptCellsNat_nodup hsp ha hcan
    have hle := nodup_subset_length_le hnodE hnodC hsubE
    have hi : a.1 ∈ remainingPieces s.RemainingPieceBitFlags := mem_attemptsOf ha
    have hlen1 : (emptyCellsOf (childOf sp (r : Int) (c : Int) s a).board).length =
        (emptyCellsOf s.board).length - (attemptCellsNat sp (r : Int) (c : Int) a).length := by
      rw [emptyCellsOf_childOf hb hnr hnc ha hcan]
      exact length_filter_not_mem hnodE hnodC hsubE
    show (emptyCellsOf (childOf sp (r : Int) (c : Int) s a).board).length = _
    rw [hlen1, childOf_flags, remainingPieces_clearPieceBit_erase,
      attemptCellsNat_length hsp ha]
    have hsum : ((List.map (fun i => (sp.getD i defaultSearchPiece).NumBalls)
          ((remainingPieces s.RemainingPieceBitFlags).erase a.1)).sum +
        (sp.getD a.1 defaultSearchPiece).NumBalls =
        (List.map (fun i => (sp.getD i defaultSearchPiece).NumBalls)
          (remainingPieces s.RemainingPieceBitFlags)).sum) :=
      sum_map_erase (fun i => (sp.getD i defaultSearchPiece).NumBalls) hi
    rw [attemptCellsNat_length hsp ha] at hle
    omega



/-! ## Stage 1: the boards the loop returns are exactly those `Reaches`
finds from some stacked state -/

lemma reaches_iff_expand (sp : List SearchPiece) (emptyCells : List (Nat × Nat))
    (NumRows NumCols : Nat) (junk : Int × Int) (s : SearchState) (B : Board) :
    Reaches sp emptyCells NumRows NumCols junk s B ↔
      B ∈ (expandState sp emptyCells NumRows NumCols junk s).sols ∨
      ∃ c ∈ (expandState sp emptyCells NumRows NumCols junk s).children,
        Reaches sp emptyCells NumRows NumCols junk c B := by
  constructor
  · intro h
    cases h with
    | sol s B hB => exact Or.inl hB
    | step s c B hc hB => exact Or.inr ⟨c, hc, hB⟩
  · rintro (h | ⟨c, hc, hB⟩)
    · exact Reaches.sol s B h
    · exact Reaches.step s c B hc hB

lemma solveAuxF_sols_iff (sp : List SearchPiece) (emptyCells : List (Nat × Nat))
    (NumRows NumCols : Nat) (junk : Int × Int) :
    ∀ (fuel : Nat) (stack : List SearchState) (sols : List Board) (stats : Stats)
      (trace : List SearchState) (out : List Board × Stats × List SearchState),
      solveAuxF false sp emptyCells NumRows NumCols junk fuel stack sols stats trace =
        some out →
      ∀ B, B ∈ out.1 ↔ B ∈ sols ∨
        ∃ s ∈ stack, Reaches sp emptyCells NumRows NumCols junk s B := by
  intro fuel
  induction fuel with
  | zero => intro stack sols stats trace out h B; cases h
  | succ fuel ih =>
    intro stack sols stats trace out h B
    match stack with
    | [] =>
      have hout : (sols, stats, trace) = out := by
        rw [solveAuxF] at h
        injection h
      rw [← hout]
      simp
    | s :: rest =>
      rw [solveAuxF] at h
      simp only [Bool.and_false, Bool.false_eq_true, if_false] at h
      have hIH := ih _ _ _ _ _ h B
      have hexp := reaches_iff_expand sp emptyCells NumRows NumCols junk s B
      rw [hIH]
      simp only [List.mem_append, List.mem_cons]
      constructor
      · rintro (⟨h1 | h1⟩ | ⟨t, ht, hR⟩)
        · exact Or.inl h1
        · exact Or.inr ⟨s, Or.inl rfl, hexp.mpr (Or.inl h1)⟩
        · rcases ht with htc | htr
          · exact Or.inr ⟨s, Or.inl rfl,
              hexp.mpr (Or.inr ⟨t, List.mem_reverse.mp htc, hR⟩)⟩
          · exact Or.inr ⟨t, Or.inr htr, hR⟩
      · rintro (h1 | ⟨t, ht, hR⟩)
        · exact Or.inl (Or.inl h1)
        · rcases ht with rfl | htr
          · rcases hexp.mp hR with h1 | ⟨c, hc, hcR⟩
            · exact Or.inl (Or.inr h1)
            · exact Or.inr ⟨c, Or.inl (List.mem_reverse.mpr hc), hcR⟩
          · exact Or.inr ⟨t, Or.inr htr, hR⟩

/-- The boards `SolveFull` (assertions off) returns are exactly the
boards `Reaches` derives from the initial state. -/
lemma SolveFull_sols_iff {sp : List SearchPiece} {input : Board}
    {NumRows NumCols : Nat} {junk : Int × Int}
    {out : List Board × Stats × List SearchState}
    (h : SolveFull false sp input NumRows NumCols junk = some out) (B : Board) :
    B ∈ out.1 ↔ Reaches sp (emptyCellsOf input) NumRows NumCols junk
      (initialState input NumRows NumCols) B := by
  have hh := solveAuxF_sols_iff sp (emptyCellsOf input) NumRows NumCols junk _ _ _ _ _ _ h B
  rw [hh]
  simp



/-! ## Stage 2 groundwork: the scan from a well-formed state -/

lemma empties_subset_input {sp : List SearchPiece} {input : Board} {s : SearchState}
    (hwf : StateWF sp input s) :
    ∀ p ∈ emptyCellsOf s.board, p ∈ emptyCellsOf input := by
  intro p hp
  rw [mem_emptyCellsOf, mem_boardIdx_iff] at hp ⊢
  exact ⟨hp.1, hwf.2.2.1 p.1 p.2 hp.1.1 hp.1.2 hp.2⟩

lemma mem_drop_emptyCells {sp : List SearchPiece} {input : Board} {s : SearchState}
    (hwf : StateWF sp input s) {p : Nat × Nat} (hp : p ∈ emptyCellsOf s.board) :
    p ∈ (emptyCellsOf input).drop s.EmptyCellIdx := by
  have hpin := empties_subset_input hwf p hp
  obtain ⟨j, hj, hgj⟩ := List.getElem_of_mem hpin
  have hjc : s.EmptyCellIdx ≤ j := by
    by_contra hcon
    have hcur := hwf.2.2.2.1 j (by omega) hj
    rw [getD_eq_getElem_of_lt _ _ hj, hgj] at hcur
    rw [mem_emptyCellsOf] at hp
    exact hcur hp.2
  have hlt : j - s.EmptyCellIdx < ((emptyCellsOf input).drop s.EmptyCellIdx).length := by
    rw [List.length_drop]
    omega
  have : ((emptyCellsOf input).drop s.EmptyCellIdx)[j - s.EmptyCellIdx] = p := by
    rw [List.getElem_drop]
    rw [← hgj]
    congr 1
    omega
  rw [← this]
  exact List.getElem_mem hlt

lemma scan_none_no_empties {sp : List SearchPiece} {input : Board} {s : SearchState}
    (hwf : StateWF sp input s)
    (h : scanTarget s.board (emptyCellsOf input) s.EmptyCellIdx = none) :
    emptyCellsOf s.board = [] := by
  rcases he : emptyCellsOf s.board with _ | ⟨p, tl⟩
  · rfl
  · exfalso
    have hp : p ∈ emptyCellsOf s.board := by rw [he]; exact List.mem_cons_self _ _
    have hmem := mem_drop_emptyCells hwf hp
    have hall := scanFrom_eq_none.mp h
    have hpe : getCell s.board p.1 p.2 = cellEmpty := (mem_emptyCellsOf.mp hp).2
    exact hall p hmem hpe

lemma scan_succeeds {sp : List SearchPiece} {input : Board} {s : SearchState}
    (hwf : StateWF sp input s) (hne : emptyCellsOf s.board ≠ []) :
    ∃ x, scanTarget s.board (emptyCellsOf input) s.EmptyCellIdx = some x := by
  rcases hsc : scanTarget s.board (emptyCellsOf input) s.EmptyCellIdx with _ | x
  · exact absurd (scan_none_no_empties hwf hsc) hne
  · exact ⟨x, rfl⟩

/-- When some attempt places from a popped state, the scan found a
real target and the placement coordinates are the target's. -/
lemma scan_of_placed {sp : List SearchPiece} {input : Board} {NumRows NumCols : Nat}
    {junk : Int × Int} {s : SearchState} {a : Nat × List (Nat × Nat) × Nat}
    (hwf : StateWF sp input s) (hnr : NumRows ≤ 16) (hnc : NumCols ≤ 16)
    (ha : a ∈ attemptsOf sp s.RemainingPieceBitFlags)
    (hcan : attemptCanPlace sp NumRows NumCols
      (expandTarget (emptyCellsOf input) junk s).1
      (expandTarget (emptyCellsOf input) junk s).2 s.board a = true) :
    ∃ idx r c,
      scanTarget s.board (emptyCellsOf input) s.EmptyCellIdx = some (idx, r, c) ∧
      expandTarget (emptyCellsOf input) junk s = ((r : Int), (c : Int)) := by
  rcases hsc : scanTarget s.board (emptyCellsOf input) s.EmptyCellIdx with _ | x
  · exfalso
    have hnil := scan_none_no_empties hwf hsc
    have hnoem := no_empty_of_emptyCellsOf_nil hnil
    have hfalse := attemptCanPlace_false_no_empty hnr hnc hnoem a ha
      (expandTarget (emptyCellsOf input) junk s).1
      (expandTarget (emptyCellsOf input) junk s).2
    rw [hcan] at hfalse
    cases hfalse
  · obtain ⟨idx, r, c⟩ := x
    refine ⟨idx, r, c, rfl, ?_⟩
    unfold expandTarget
    rw [hsc]



/-! ## Pointwise description of `paint` -/

lemma foldSetNat_wf (v : Nat) :
    ∀ (l : List (Nat × Nat)) (b : Board), BoardWF b →
      BoardWF (l.foldl (fun bb p => setCell bb p.1 p.2 v) b) := by
  intro l
  induction l with
  | nil => intro b h; exact h
  | cons p rest ih =>
    intro b hwf
    rw [List.foldl_cons]
    exact ih _ (setCell_wf hwf _ _ _)

lemma getCell_foldSetNat (v : Nat) :
    ∀ (l : List (Nat × Nat)) (b : Board), BoardWF b →
      (∀ p ∈ l, p.1 < 16 ∧ p.2 < 16) →
      ∀ r c : Nat,
        getCell (l.foldl (fun bb p => setCell bb p.1 p.2 v) b) r c =
          if (r, c) ∈ l then v else getCell b r c := by
  intro l
  induction l with
  | nil => intro b _ _ r c; simp
  | cons q rest ih =>
    intro b hwf hin r c
    obtain ⟨hq1, hq2⟩ := hin q (List.mem_cons_self _ _)
    rw [List.foldl_cons]
    rw [ih (setCell b q.1 q.2 v) (setCell_wf hwf _ _ _)
      (fun p hp => hin p (List.mem_cons_of_mem _ hp)) r c]
    by_cases hmem : (r, c) ∈ rest
    · rw [if_pos hmem, if_pos (List.mem_cons_of_mem _ hmem)]
    · rw [if_neg hmem, getCell_setCell hwf hq1 hq2 v r c]
      by_cases hq : r = q.1 ∧ c = q.2
      · rw [if_pos hq, if_pos (List.mem_cons.mpr (Or.inl (by
          rw [Prod.ext_iff]
          exact ⟨hq.1, hq.2⟩)))]
      · rw [if_neg hq, if_neg ?h]
        case h =>
          rw [List.mem_cons]
          rintro (h | h)
          · rw [Prod.ext_iff] at h
            exact hq h
          · exact hmem h

lemma paint_nil (b : Board) : paint b [] = b := rfl

lemma paint_cons (b : Board) (e : Nat × List (Nat × Nat))
    (T : List (Nat × List (Nat × Nat))) :
    paint b (e :: T) =
      paint (e.2.foldl (fun bb p => setCell bb p.1 p.2 (PieceIndexToCellValue e.1)) b)
        T := rfl

lemma paint_wf : ∀ (T : List (Nat × List (Nat × Nat))) (b : Board), BoardWF b →
    BoardWF (paint b T) := by
  intro T
  induction T with
  | nil => intro b h; exact h
  | cons e T ih =>
    intro b hwf
    rw [paint_cons]
    exact ih _ (foldSetNat_wf _ _ _ hwf)

lemma getCell_paint_not_mem :
    ∀ (T : List (Nat × List (Nat × Nat))) (b : Board), BoardWF b →
      (∀ e ∈ T, ∀ p ∈ e.2, p.1 < 16 ∧ p.2 < 16) →
      ∀ r c : Nat, (r, c) ∉ T.flatMap Prod.snd →
        getCell (paint b T) r c = getCell b r c := by
  intro T
  induction T with
  | nil => intro b _ _ r c _; rfl
  | cons e T ih =>
    intro b hwf hb r c hmem
    rw [List.flatMap_cons, List.mem_append] at hmem
    push_neg at hmem
    rw [paint_cons,
      ih _ (foldSetNat_wf _ _ _ hwf) (fun e' he' => hb e' (List.mem_cons_of_mem _ he'))
        r c hmem.2,
      getCell_foldSetNat _ _ _ hwf (hb e (List.mem_cons_self _ _)) r c,
      if_neg hmem.1]

lemma getCell_paint_mem :
    ∀ (T : List (Nat × List (Nat × Nat))) (b : Board), BoardWF b →
      (∀ e ∈ T, ∀ p ∈ e.2, p.1 < 16 ∧ p.2 < 16) →
      (T.flatMap Prod.snd).Nodup →
      ∀ e ∈ T, ∀ r c : Nat, (r, c) ∈ e.2 →
        getCell (paint b T) r c = PieceIndexToCellValue e.1 := by
  intro T
  induction T with
  | nil => intro b _ _ _ e he; cases he
  | cons e0 T ih =>
    intro b hwf hb hnd e he r c hrc
    have hnd' := hnd
    rw [List.flatMap_cons, List.nodup_append] at hnd'
    obtain ⟨hnd1, hnd2, hdisj⟩ := hnd'
    rcases List.mem_cons.mp he with rfl | heT
    · -- the head tile wrote the cell, no later tile touches it
      rw [paint_cons,
        getCell_paint_not_mem _ _ (foldSetNat_wf _ _ _ hwf)
          (fun e' he' => hb e' (List.mem_cons_of_mem _ he')) r c (hdisj hrc),
        getCell_foldSetNat _ _ _ hwf (hb e (List.mem_cons_self _ _)) r c,
        if_pos hrc]
    · rw [paint_cons]
      exact ih _ (foldSetNat_wf _ _ _ hwf)
        (fun e' he' => hb e' (List.mem_cons_of_mem _ he')) hnd2 e heT r c hrc

lemma flatMap_perm {α β : Type} {l1 l2 : List α} (f : α → List β) (h : l1.Perm l2) :
    (l1.flatMap f).Perm (l2.flatMap f) := by
  rw [List.flatMap_def, List.flatMap_def]
  exact (h.map f).flatten

/-- Painting disjoint tiles is order independent. -/
lemma paint_perm {T1 T2 : List (Nat × List (Nat × Nat))} {b : Board}
    (hwf : BoardWF b) (hperm : T1.Perm T2)
    (hb : ∀ e ∈ T1, ∀ p ∈ e.2, p.1 < 16 ∧ p.2 < 16)
    (hnd : (T1.flatMap Prod.snd).Nodup) :
    paint b T1 = paint b T2 := by
  have hb2 : ∀ e ∈ T2, ∀ p ∈ e.2, p.1 < 16 ∧ p.2 < 16 :=
    fun e he => hb e (hperm.symm.subset he)
  have hfl : (T1.flatMap Prod.snd).Perm (T2.flatMap Prod.snd) :=
    flatMap_perm Prod.snd hperm
  have hnd2 : (T2.flatMap Prod.snd).Nodup := hfl.nodup_iff.mp hnd
  apply board_ext (paint_wf T1 b hwf) (paint_wf T2 b hwf)
  intro r c hr hc
  by_cases hmem : (r, c) ∈ T1.flatMap Prod.snd
  · obtain ⟨e, he, hrc⟩ := List.mem_flatMap.mp hmem
    rw [getCell_paint_mem T1 b hwf hb hnd e he r c hrc,
      getCell_paint_mem T2 b hwf hb2 hnd2 e (hperm.subset he) r c hrc]
  · have hmem2 : (r, c) ∉ T2.flatMap Prod.snd := fun h => hmem (hfl.symm.subset h)
    rw [getCell_paint_not_mem T1 b hwf hb r c hmem,
      getCell_paint_not_mem T2 b hwf hb2 r c hmem2]

/-- The cells of every tile of a tiling are on the 16×16 grid. -/
lemma tiling_bounds {sp : List SearchPiece} {b : Board} {rem : List Nat}
    {T : List (Nat × List (Nat × Nat))} (h : IsTilingOf sp b rem T) :
    ∀ e ∈ T, ∀ p ∈ e.2, p.1 < 16 ∧ p.2 < 16 := by
  intro e he p hp
  have hfl : p ∈ T.flatMap Prod.snd := List.mem_flatMap.mpr ⟨e, he, hp⟩
  have := (h.2.2.2 p).mp hfl
  rw [mem_emptyCellsOf, mem_boardIdx_iff] at this
  exact this.1

/-- Applying one placed attempt's tile is exactly the child board. -/
lemma paintTile_eq_childBoard {sp : List SearchPiece} {flags : Nat}
    {NumRows NumCols : Nat} {tR tC : Int} {s : SearchState}
    {a : Nat × List (Nat × Nat) × Nat}
    (hwf : BoardWF s.board) (hnr : NumRows ≤ 16) (hnc : NumCols ≤ 16)
    (ha : a ∈ attemptsOf sp flags)
    (hcan : attemptCanPlace sp NumRows NumCols tR tC s.board a = true) :
    (attemptCellsNat sp tR tC a).foldl
        (fun bb p => setCell bb p.1 p.2 (PieceIndexToCellValue a.1)) s.board =
      (childOf sp tR tC s a).board := by
  have hbnd : ∀ p ∈ attemptCellsNat sp tR tC a, p.1 < 16 ∧ p.2 < 16 := by
    intro p hp
    obtain ⟨q, hq, rfl⟩ := List.mem_map.mp hp
    have := attemptCells_bounds hnr hnc hcan q hq
    omega
  apply board_ext (foldSetNat_wf _ _ _ hwf) (childOf_board_wf hwf)
  intro r c hr hc
  rw [getCell_foldSetNat _ _ _ hwf hbnd r c, getCell_childOf_nat hwf hnr hnc ha hcan r c]



/-! ## The tile of a placed attempt -/

lemma getD_map_of_lt {α β : Type} (f : α → β) (l : List α) (d : β) (e : α) {k : Nat}
    (hk : k < l.length) : (l.map f).getD k d = f (l.getD k e) := by
  rw [getD_eq_getElem_of_lt _ _ (by rw [List.length_map]; exact hk),
    getD_eq_getElem_of_lt _ _ hk, List.getElem_map]

/-- The covered cells of a valid attempt are a translate of its
orientation. -/
lemma attempt_isTranslate {sp : List SearchPiece} {flags : Nat} {NumRows NumCols : Nat}
    {tR tC : Int} {b : Board} {a : Nat × List (Nat × Nat) × Nat}
    (hsp : SPGood sp) (ha : a ∈ attemptsOf sp flags)
    (hcan : attemptCanPlace sp NumRows NumCols tR tC b a = true) :
    IsTranslate a.2.1 (attemptCellsNat sp tR tC a) := by
  have hform : attemptCellsNat sp tR tC a =
      a.2.1.map fun ball =>
        ((ballAbs tR tC (a.2.1.getD a.2.2 (0, 0)) ball).1.toNat,
         (ballAbs tR tC (a.2.1.getD a.2.2 (0, 0)) ball).2.toNat) := by
    unfold attemptCellsNat
    rw [attemptCells_eq hsp ha, List.map_map]
    rfl
  have hcnl : (attemptCellsNat sp tR tC a).length = a.2.1.length := by
    rw [hform, List.length_map]
  refine ⟨tR - ((a.2.1.getD a.2.2 (0, 0)).1 : Int),
    tC - ((a.2.1.getD a.2.2 (0, 0)).2 : Int), hcnl, ?_⟩
  intro k hk
  have hball : a.2.1.getD k (0, 0) ∈ a.2.1 := by
    rw [getD_eq_getElem_of_lt _ _ hk]
    exact List.getElem_mem hk
  have hmem : ballAbs tR tC (a.2.1.getD a.2.2 (0, 0)) (a.2.1.getD k (0, 0)) ∈
      attemptCells sp tR tC a := by
    rw [attemptCells_eq hsp ha]
    exact List.mem_map_of_mem _ hball
  have hok := ballOk_iff.mp (attemptCanPlace_iff.mp hcan _ hmem)
  rw [hform, getD_map_of_lt _ _ _ (0, 0) hk]
  unfold ballAbs at hok ⊢
  dsimp only at hok ⊢
  constructor
  · rw [Int.toNat_of_nonneg hok.1]
    ring
  · rw [Int.toNat_of_nonneg hok.2.2.1]
    ring

/-- `Initialize` output is well-formed when every piece definition has
at least one occupied cell. -/
lemma SPGood_Initialize {Pieces : List PieceDef} (hP : ∀ D ∈ Pieces, 1 ≤ ballCount D) :
    SPGood (Initialize Pieces) := by
  intro pc hpc
  obtain ⟨D, hD, rfl⟩ := List.mem_map.mp hpc
  refine ⟨?_, ?_, mkSearchPiece_orientations_ne_nil D⟩
  · intro o ho
    refine ⟨mkSearchPiece_orientations_length ho, ?_⟩
    rw [mkSearchPiece_Orientations] at ho
    obtain ⟨E, hE, rfl⟩ := List.mem_map.mp ho
    exact ballList_nodup E
  · rw [mkSearchPiece_numBalls]
    exact hP D hD

lemma nodup_subset_length_eq {l sub : List (Nat × Nat)}
    (hl : l.Nodup) (hsub : sub.Nodup) (hss : ∀ x ∈ sub, x ∈ l)
    (hlen : l.length ≤ sub.length) : ∀ x, x ∈ sub ↔ x ∈ l := by
  have hfs : sub.toFinset = l.toFinset := by
    apply Finset.eq_of_subset_of_card_le
    · intro x hx
      rw [List.mem_toFinset] at hx ⊢
      exact hss x hx
    · rw [List.toFinset_card_of_nodup hl, List.toFinset_card_of_nodup hsub]
      exact hlen
  intro x
  rw [← List.mem_toFinset, ← List.mem_toFinset, hfs]

lemma length_one_mem_eq {l : List Nat} {i : Nat} (hlen : l.length = 1) (hi : i ∈ l) :
    l = [i] := by
  match l, hlen with
  | [x], _ =>
    rw [List.mem_singleton] at hi
    rw [hi]



/-! ## Stage 2, soundness: every reached board is a painted tiling -/

lemma reaches_sound {sp : List SearchPiece} {input : Board} {NumRows NumCols : Nat}
    {junk : Int × Int}
    (hsp : SPGood sp) (hnr : NumRows ≤ 16) (hnc : NumCols ≤ 16) :
    ∀ {s : SearchState} {B : Board},
      Reaches sp (emptyCellsOf input) NumRows NumCols junk s B →
      StateWF sp input s →
      ∃ T, IsTilingOf sp s.board (remainingPieces s.RemainingPieceBitFlags) T ∧
        B = paint s.board T := by
  intro s B hR
  induction hR with
  | sol s B hB =>
    intro hwf
    have hb := hwf.1
    rw [expandState_sols] at hB
    cases hlast : ((remainingPieces s.RemainingPieceBitFlags).length == 1) with
    | false =>
      rw [hlast, if_neg (by simp)] at hB
      cases hB
    | true =>
      rw [hlast, if_pos rfl] at hB
      obtain ⟨a, haf, rfl⟩ := List.mem_map.mp hB
      have ha := List.mem_of_mem_filter haf
      have hcan0 := List.of_mem_filter haf
      obtain ⟨idx, r, c, hscan, ht⟩ := scan_of_placed hwf hnr hnc ha hcan0
      rw [ht] at hcan0 ⊢
      dsimp only at hcan0 ⊢
      have hrem : remainingPieces s.RemainingPieceBitFlags = [a.1] :=
        length_one_mem_eq (by simpa using hlast) (mem_attemptsOf ha)
      refine ⟨[(a.1, attemptCellsNat sp (r : Int) (c : Int) a)], ⟨?_, ?_, ?_, ?_⟩, ?_⟩
      · rw [hrem]
        simp
      · intro e he
        rw [List.mem_singleton] at he
        subst he
        exact ⟨a.2.1, (mem_attemptsOf_iff.mp ha).2.1, attempt_isTranslate hsp ha hcan0⟩
      · simpa using attemptCellsNat_nodup hsp ha hcan0
      · intro p
        simp only [List.flatMap_cons, List.flatMap_nil, List.append_nil]
        constructor
        · exact attemptCellsNat_subset_empty hb hcan0 p
        · have hcnt := hwf.2.2.2.2
          rw [hrem] at hcnt
          simp only [List.map_cons, List.map_nil, List.sum_cons, List.sum_nil] at hcnt
          refine fun hp => (nodup_subset_length_eq (emptyCellsOf_nodup s.board)
            (attemptCellsNat_nodup hsp ha hcan0)
            (attemptCellsNat_subset_empty hb hcan0) ?_ p).mpr hp
          rw [attemptCellsNat_length hsp ha]
          omega
      · rw [paint_cons, paint_nil]
        dsimp only
        rw [paintTile_eq_childBoard hb hnr hnc ha hcan0]
  | step s child B hc hcR ih =>
    intro hwf
    have hb := hwf.1
    obtain ⟨a, ha, hcan0, hchild⟩ := mem_children_struct hc
    obtain ⟨idx, r, c, hscan, ht⟩ := scan_of_placed hwf hnr hnc ha hcan0
    rw [ht] at hcan0 hchild
    dsimp only at hcan0 hchild
    subst hchild
    have hcwf := stateWF_childOf hsp hwf hnr hnc hscan ha hcan0
    obtain ⟨T', htil', hBp⟩ := ih hcwf
    obtain ⟨hperm', htrans', hnd', hcov'⟩ := htil'
    have hremc : remainingPieces
        (childOf sp (r : Int) (c : Int) s a).RemainingPieceBitFlags =
        (remainingPieces s.RemainingPieceBitFlags).erase a.1 := by
      rw [childOf_flags, remainingPieces_clearPieceBit_erase]
    rw [hremc] at hperm'
    have hemC := emptyCellsOf_childOf hb hnr hnc ha hcan0
    have hcov2 : ∀ p : Nat × Nat, p ∈ T'.flatMap Prod.snd ↔
        p ∈ emptyCellsOf s.board ∧ p ∉ attemptCellsNat sp (r : Int) (c : Int) a := by
      intro p
      rw [hcov' p, hemC, List.mem_filter, decide_eq_true_eq]
    have hnodC := attemptCellsNat_nodup hsp ha hcan0
    have hsubE := attemptCellsNat_subset_empty hb hcan0
    refine ⟨(a.1, attemptCellsNat sp (r : Int) (c : Int) a) :: T', ⟨?_, ?_, ?_, ?_⟩, ?_⟩
    · simp only [List.map_cons]
      exact (hperm'.cons a.1).trans (List.perm_cons_erase (mem_attemptsOf ha)).symm
    · intro e he
      rcases List.mem_cons.mp he with rfl | heT
      · exact ⟨a.2.1, (mem_attemptsOf_iff.mp ha).2.1, attempt_isTranslate hsp ha hcan0⟩
      · exact htrans' e heT
    · rw [List.flatMap_cons, List.nodup_append]
      refine ⟨hnodC, hnd', ?_⟩
      intro p hp hpf
      exact ((hcov2 p).mp hpf).2 hp
    · intro p
      rw [List.flatMap_cons, List.mem_append]
      constructor
      · rintro (hp | hp)
        · exact hsubE p hp
        · exact ((hcov2 p).mp hp).1
      · intro hp
        by_cases hpc : p ∈ attemptCellsNat sp (r : Int) (c : Int) a
        · exact Or.inl hpc
        · exact Or.inr ((hcov2 p).mpr ⟨hp, hpc⟩)
    · rw [paint_cons]
      dsimp only
      rw [paintTile_eq_childBoard hb hnr hnc ha hcan0]
      exact hBp



/-! ## Stage 2, completeness: every painted tiling is reached -/

lemma reaches_complete {sp : List SearchPiece} {input : Board} {NumRows NumCols : Nat}
    {junk : Int × Int}
    (hsp : SPGood sp) (hsl : sp.length = 12)
    (hnr : NumRows ≤ 16) (hnc : NumCols ≤ 16)
    (hout : ∀ r c : Nat, r < 16 → c < 16 → NumRows ≤ r ∨ NumCols ≤ c →
      getCell input r c ≠ cellEmpty) :
    ∀ (n : Nat) (s : SearchState) (T : List (Nat × List (Nat × Nat))) (B : Board),
      StateWF sp input s →
      (remainingPieces s.RemainingPieceBitFlags).length = n → 1 ≤ n →
      IsTilingOf sp s.board (remainingPieces s.RemainingPieceBitFlags) T →
      B = paint s.board T →
      Reaches sp (emptyCellsOf input) NumRows NumCols junk s B := by
  intro n
  induction n with
  | zero => intro s T B _ _ h1 _ _; omega
  | succ n ih =>
    intro s T B hwf hlen _ htil hB
    have hbnds := tiling_bounds htil
    obtain ⟨hperm, htrans, hnd, hcov⟩ := htil
    have hb := hwf.1
    have hlt : ∀ i ∈ remainingPieces s.RemainingPieceBitFlags, i < sp.length := by
      intro i hi
      have := mem_remainingPieces_lt hi
      omega
    -- the tiling is nonempty, hence the state still has an empty cell
    have hTne : T ≠ [] := by
      intro hTnil
      rw [hTnil] at hperm
      have := hperm.length_eq
      simp only [List.map_nil, List.length_nil] at this
      omega
    obtain ⟨e0, he0⟩ := List.exists_mem_of_ne_nil T hTne
    have he0r : e0.1 ∈ remainingPieces s.RemainingPieceBitFlags :=
      hperm.subset (List.mem_map_of_mem Prod.fst he0)
    obtain ⟨o0, ho0, htr0⟩ := htrans e0 he0
    have hsp0 := hsp (sp.getD e0.1 defaultSearchPiece)
      (by rw [getD_eq_getElem_of_lt _ _ (hlt _ he0r)]; exact List.getElem_mem _)
    have ho0len : o0.length = (sp.getD e0.1 defaultSearchPiece).NumBalls :=
      (hsp0.1 o0 ho0).1
    obtain ⟨dR0, dC0, hlen0, _⟩ := htr0
    have hEne : emptyCellsOf s.board ≠ [] := by
      have h1 : 0 < e0.2.length := by
        have := hsp0.2.1
        omega
      obtain ⟨p, hp⟩ := List.exists_mem_of_length_pos h1
      have hpf : p ∈ T.flatMap Prod.snd := List.mem_flatMap.mpr ⟨e0, he0, hp⟩
      have hpe := (hcov p).mp hpf
      intro hnil
      rw [hnil] at hpe
      cases hpe
    obtain ⟨⟨idx, r, c⟩, hscan⟩ := scan_succeeds hwf hEne
    obtain ⟨hs1, hs2, hs3, hs4, hs5⟩ := scanFrom_spec hscan
    have hrc : (r, c) ∈ emptyCellsOf s.board := empty_mem_emptyCellsOf hb hs4
    obtain ⟨e, he, hrce⟩ := List.mem_flatMap.mp ((hcov (r, c)).mpr hrc)
    obtain ⟨o, ho, htr⟩ := htrans e he
    obtain ⟨dR, dC, hlenT, htrk⟩ := htr
    have her : e.1 ∈ remainingPieces s.RemainingPieceBitFlags :=
      hperm.subset (List.mem_map_of_mem Prod.fst he)
    have hspe := hsp (sp.getD e.1 defaultSearchPiece)
      (by rw [getD_eq_getElem_of_lt _ _ (hlt _ her)]; exact List.getElem_mem _)
    have holen : o.length = (sp.getD e.1 defaultSearchPiece).NumBalls := (hspe.1 o ho).1
    obtain ⟨k0, hk0, hget0⟩ := List.getElem_of_mem hrce
    have ha : (e.1, o, k0) ∈ attemptsOf sp s.RemainingPieceBitFlags := by
      rw [mem_attemptsOf_iff]
      refine ⟨her, ho, ?_⟩
      dsimp only
      omega
    -- each ball of the attempt lands on the corresponding tile cell
    have hball : ∀ k, k < o.length →
        ballAbs (r : Int) (c : Int) (o.getD k0 (0, 0)) (o.getD k (0, 0)) =
          (((e.2.getD k (0, 0)).1 : Int), ((e.2.getD k (0, 0)).2 : Int)) := by
      intro k hk
      have h1 := htrk k hk
      have h2 := htrk k0 (by omega)
      have h3 : e.2.getD k0 (0, 0) = (r, c) := by
        rw [getD_eq_getElem_of_lt _ _ hk0, hget0]
      rw [h3] at h2
      unfold ballAbs
      rw [Prod.mk.injEq]
      dsimp only at h1 h2 ⊢
      omega
    have hcells : attemptCells sp (r : Int) (c : Int) (e.1, o, k0) =
        e.2.map fun p => ((p.1 : Int), (p.2 : Int)) := by
      rw [attemptCells_eq hsp ha]
      dsimp only
      apply List.ext_getElem
      · rw [List.length_map, List.length_map]
        omega
      · intro k hk1 hk2
        rw [List.getElem_map, List.getElem_map]
        have hko : k < o.length := by simpa using hk1
        have hke : k < e.2.length := by omega
        have := hball k hko
        rw [getD_eq_getElem_of_lt _ _ hko, getD_eq_getElem_of_lt _ _ hke] at this
        exact this
    have hcan : attemptCanPlace sp NumRows NumCols (r : Int) (c : Int) s.board
        (e.1, o, k0) = true := by
      rw [attemptCanPlace_iff]
      intro p hp
      rw [hcells] at hp
      obtain ⟨q, hq, rfl⟩ := List.mem_map.mp hp
      have hqf : q ∈ emptyCellsOf s.board :=
        (hcov q).mp (List.mem_flatMap.mpr ⟨e, he, hq⟩)
      have hqi : q ∈ emptyCellsOf input := empties_subset_input hwf q hqf
      have hqb := mem_emptyCellsOf.mp hqi
      rw [mem_boardIdx_iff] at hqb
      have hext : q.1 < NumRows ∧ q.2 < NumCols := by
        by_contra hcon
        exact hout q.1 q.2 hqb.1.1 hqb.1.2 (by omega) hqb.2
      have hqe := (mem_emptyCellsOf.mp hqf).2
      rw [ballOk_iff]
      refine ⟨?_, ?_, ?_, ?_, ?_⟩
      · exact Int.natCast_nonneg _
      · show (q.1 : Int) < (NumRows : Int)
        exact_mod_cast hext.1
      · exact Int.natCast_nonneg _
      · show (q.2 : Int) < (NumCols : Int)
        exact_mod_cast hext.2
      · show getCell s.board ((q.1 : Int)).toNat ((q.2 : Int)).toNat = cellEmpty
        simpa using hqe
    have hcellsN : attemptCellsNat sp (r : Int) (c : Int) (e.1, o, k0) = e.2 := by
      unfold attemptCellsNat
      rw [hcells, List.map_map]
      have hco : ((fun p : Int × Int => (p.1.toNat, p.2.toNat)) ∘
          fun p : Nat × Nat => ((p.1 : Int), (p.2 : Int))) = id := by
        funext p
        simp
      rw [hco, List.map_id]
    have ht : expandTarget (emptyCellsOf input) junk s = ((r : Int), (c : Int)) := by
      unfold expandTarget
      rw [hscan]
    have ht1 : (expandTarget (emptyCellsOf input) junk s).1 = (r : Int) := by rw [ht]
    have ht2 : (expandTarget (emptyCellsOf input) junk s).2 = (c : Int) := by rw [ht]
    have hwfr : StateWF sp input s := hwf
    have hcwf := stateWF_childOf hsp hwfr hnr hnc hscan ha hcan
    rcases Nat.eq_zero_or_pos n with hn0 | hn1
    · -- last piece: the placement itself records the solution
      subst hn0
      have hrem1 : remainingPieces s.RemainingPieceBitFlags = [e.1] :=
        length_one_mem_eq (by omega) her
      have hT1 : T = [e] := by
        have hl1 : T.length = 1 := by
          have := hperm.length_eq
          rw [List.length_map] at this
          omega
        obtain ⟨e', hT⟩ := List.length_eq_one.mp hl1
        rw [hT]
        rw [hT, List.mem_singleton] at he
        rw [he]
      have happ : (attemptCellsNat sp (r : Int) (c : Int) (e.1, o, k0)).foldl
          (fun bb p => setCell bb p.1 p.2 (PieceIndexToCellValue e.1)) s.board =
          (childOf sp (r : Int) (c : Int) s (e.1, o, k0)).board :=
        paintTile_eq_childBoard hb hnr hnc ha hcan
      have hBc : B = (childOf sp (r : Int) (c : Int) s (e.1, o, k0)).board := by
        rw [hB, hT1, paint_cons, paint_nil, ← hcellsN]
        exact happ
      apply Reaches.sol
      rw [expandState_sols, if_pos (by rw [hrem1]; rfl), ht1, ht2, hBc]
      exact List.mem_map_of_mem _ (List.mem_filter.mpr ⟨ha, hcan⟩)
    · -- more pieces remain: recurse through the pushed child
      obtain ⟨T1, T2, hT12⟩ := List.append_of_mem he
      have hTe : T.Perm (e :: (T1 ++ T2)) := by
        rw [hT12]
        exact List.perm_middle
      have hfl : (T.flatMap Prod.snd).Perm (e.2 ++ (T1 ++ T2).flatMap Prod.snd) := by
        have := flatMap_perm Prod.snd hTe
        rwa [List.flatMap_cons] at this
      have hndA : (e.2 ++ (T1 ++ T2).flatMap Prod.snd).Nodup := hfl.nodup_iff.mp hnd
      rw [List.nodup_append] at hndA
      obtain ⟨hnde, hndT', hdisj⟩ := hndA
      have hremc : remainingPieces
          (childOf sp (r : Int) (c : Int) s (e.1, o, k0)).RemainingPieceBitFlags =
          (remainingPieces s.RemainingPieceBitFlags).erase e.1 := by
        rw [childOf_flags, remainingPieces_clearPieceBit_erase]
      have hemC := emptyCellsOf_childOf hb hnr hnc ha hcan
      rw [hcellsN] at hemC
      -- the residual tiling for the child state
      have htilc : IsTilingOf sp (childOf sp (r : Int) (c : Int) s (e.1, o, k0)).board
          (remainingPieces
            (childOf sp (r : Int) (c : Int) s (e.1, o, k0)).RemainingPieceBitFlags)
          (T1 ++ T2) := by
        rw [hremc]
        refine ⟨?_, ?_, hndT', ?_⟩
        · have h1 : (T.map Prod.fst).Perm (e.1 :: (T1 ++ T2).map Prod.fst) := by
            have := hTe.map Prod.fst
            rwa [List.map_cons] at this
          have h2 : (remainingPieces s.RemainingPieceBitFlags).Perm
              (e.1 :: (remainingPieces s.RemainingPieceBitFlags).erase e.1) :=
            List.perm_cons_erase her
          exact (List.Perm.cons_inv ((h1.symm.trans hperm).trans h2))
        · intro e' he'
          exact htrans e' (hTe.symm.subset (List.mem_cons_of_mem _ he'))
        · intro p
          rw [hemC, List.mem_filter, decide_eq_true_eq]
          constructor
          · intro hp
            have hpT : p ∈ T.flatMap Prod.snd :=
              hfl.symm.subset (List.mem_append.mpr (Or.inr hp))
            refine ⟨(hcov p).mp hpT, fun hpe => ?_⟩
            exact hdisj hpe hp
          · rintro ⟨hp, hpe⟩
            have hpT : p ∈ T.flatMap Prod.snd := (hcov p).mpr hp
            rcases List.mem_append.mp (hfl.subset hpT) with h | h
            · exact absurd h hpe
            · exact h
      have hBc : B = paint
          (childOf sp (r : Int) (c : Int) s (e.1, o, k0)).board (T1 ++ T2) := by
        have happ : (attemptCellsNat sp (r : Int) (c : Int) (e.1, o, k0)).foldl
            (fun bb p => setCell bb p.1 p.2 (PieceIndexToCellValue e.1)) s.board =
            (childOf sp (r : Int) (c : Int) s (e.1, o, k0)).board :=
          paintTile_eq_childBoard hb hnr hnc ha hcan
        rw [hB, paint_perm hb hTe hbnds hnd, paint_cons, ← hcellsN, happ]
      have hlenc : (remainingPieces
          (childOf sp (r : Int) (c : Int) s (e.1, o, k0)).RemainingPieceBitFlags).length
          = n := by
        rw [hremc, List.length_erase_of_mem her, hlen]
        omega
      have hRchild := ih (childOf sp (r : Int) (c : Int) s (e.1, o, k0)) (T1 ++ T2) B
        hcwf hlenc hn1 htilc hBc
      refine Reaches.step s _ B ?_ hRchild
      rw [expandState_children_eq, if_neg ?hne, ht1, ht2]
      case hne =>
        intro hcon
        have := eq_of_beq hcon
        omega
      exact List.mem_map_of_mem _ (List.mem_filter.mpr ⟨ha, hcan⟩)



/-! ## The initial state -/

lemma initialState_board (b : Board) (NumRows NumCols : Nat) :
    (initialState b NumRows NumCols).board = b := rfl

lemma initialState_flags (b : Board) (NumRows NumCols : Nat) :
    (initialState b NumRows NumCols).RemainingPieceBitFlags =
      initialFlags b NumRows NumCols := rfl

lemma stateWF_initial {sp : List SearchPiece} {input : Board} {NumRows NumCols : Nat}
    (hwfI : BoardWF input)
    (hcnt : (emptyCellsOf input).length =
      ((remainingPieces (initialFlags input NumRows NumCols)).map
        fun i => (sp.getD i defaultSearchPiece).NumBalls).sum) :
    StateWF sp input (initialState input NumRows NumCols) := by
  refine ⟨hwfI, ?_, ?_, ?_, hcnt⟩
  · intro r c _ _ _
    rfl
  · intro r c _ _ h
    exact h
  · intro k hk _
    simp only [initialState] at hk
    omega

lemma IsPiece_and_15 {v : Nat} (h : IsPiece v = true) : v &&& 15 = v := by
  unfold IsPiece at h
  simp only [Bool.and_eq_true, decide_eq_true_eq] at h
  obtain ⟨h3, h14⟩ := h
  interval_cases v <;> rfl

lemma clearPieceBit_testBit_zero {flags i : Nat} (hi : 3 ≤ i) (hi12 : i < 16) :
    (clearPieceBit flags i).testBit 0 = flags.testBit 0 := by
  rw [testBit_clearPieceBit flags i 0 (by omega)]
  have h0 : (0 == i) = false := by
    rw [beq_eq_false_iff_ne]
    omega
  rw [h0]
  simp

/-- Bit 0 survives the pre-placement scan: `CellValueToPieceIndex`
returns the raw codes 3..14, so bits 0..2 are never cleared. -/
lemma initialFlags_testBit_zero (b : Board) (NumRows NumCols : Nat) :
    (initialFlags b NumRows NumCols).testBit 0 = true := by
  have hgen : ∀ (l : List (Nat × Nat)) (flags : Nat), flags.testBit 0 = true →
      (l.foldl (fun flags rc =>
        let v := getCell b rc.1 rc.2
        if IsPiece v then clearPieceBit flags (CellValueToPieceIndex v) else flags)
        flags).testBit 0 = true := by
    intro l
    induction l with
    | nil => intro flags h; exact h
    | cons rc rest ih =>
      intro flags h
      rw [List.foldl_cons]
      apply ih
      dsimp only
      by_cases hp : IsPiece (getCell b rc.1 rc.2) = true
      · rw [if_pos hp]
        have hb : 3 ≤ getCell b rc.1 rc.2 ∧ getCell b rc.1 rc.2 ≤ 14 := by
          unfold IsPiece at hp
          simp only [Bool.and_eq_true, decide_eq_true_eq] at hp
          exact hp
        unfold CellValueToPieceIndex
        rw [IsPiece_and_15 hp, clearPieceBit_testBit_zero hb.1 (by omega)]
        exact h
      · rw [if_neg hp]
        exact h
  exact hgen _ _ (by decide)

lemma remainingPieces_initial_pos (b : Board) (NumRows NumCols : Nat) :
    1 ≤ (remainingPieces (initialFlags b NumRows NumCols)).length := by
  have hmem : 0 ∈ remainingPieces (initialFlags b NumRows NumCols) := by
    unfold remainingPieces
    rw [List.mem_filter]
    refine ⟨by simp, ?_⟩
    rw [bitTest_eq_testBit]
    exact initialFlags_testBit_zero b NumRows NumCols
  exact List.length_pos_of_mem hmem

/-! ## Properties of painted tilings -/

lemma paint_no_empty {sp : List SearchPiece} {input : Board} {rem : List Nat}
    {T : List (Nat × List (Nat × Nat))} (hwfI : BoardWF input)
    (htil : IsTilingOf sp input rem T) :
    ∀ r c : Nat, r < 16 → c < 16 → getCell (paint input T) r c ≠ cellEmpty := by
  intro r c _ _ hcell
  have hbnds := tiling_bounds htil
  obtain ⟨_, _, hnd, hcov⟩ := htil
  by_cases hmem : (r, c) ∈ T.flatMap Prod.snd
  · obtain ⟨e, he, hrc⟩ := List.mem_flatMap.mp hmem
    rw [getCell_paint_mem T input hwfI hbnds hnd e he r c hrc] at hcell
    exact pieceValue_ne_empty e.1 hcell
  · rw [getCell_paint_not_mem T input hwfI hbnds r c hmem] at hcell
    exact hmem ((hcov (r, c)).mpr (empty_mem_emptyCellsOf hwfI hcell))

lemma count_tiles_of_nodup :
    ∀ (T : List (Nat × List (Nat × Nat))), (T.flatMap Prod.snd).Nodup →
      ∀ p : Nat × Nat, (T.filter fun e => decide (p ∈ e.2)).length =
        if p ∈ T.flatMap Prod.snd then 1 else 0 := by
  intro T
  induction T with
  | nil => intro _ p; simp
  | cons e T ih =>
    intro hnd p
    rw [List.flatMap_cons, List.nodup_append] at hnd
    obtain ⟨hnde, hndT, hdisj⟩ := hnd
    rw [List.filter_cons]
    by_cases hpe : p ∈ e.2
    · rw [if_pos (by simpa using hpe), List.length_cons, ih hndT p,
        if_neg (fun h => hdisj hpe h),
        if_pos (by rw [List.flatMap_cons, List.mem_append]; exact Or.inl hpe)]
    · rw [if_neg (by simpa using hpe), ih hndT p]
      by_cases hpf : p ∈ T.flatMap Prod.snd
      · rw [if_pos hpf,
          if_pos (by rw [List.flatMap_cons, List.mem_append]; exact Or.inr hpf)]
      · rw [if_neg hpf, if_neg ?hn]
        case hn =>
          rw [List.flatMap_cons, List.mem_append]
          rintro (h | h)
          · exact hpe h
          · exact hpf h

lemma nodup_same_mem_length_eq {l1 l2 : List (Nat × Nat)} (h1 : l1.Nodup) (h2 : l2.Nodup)
    (h : ∀ x, x ∈ l1 ↔ x ∈ l2) : l1.length = l2.length := by
  rw [← List.toFinset_card_of_nodup h1, ← List.toFinset_card_of_nodup h2]
  congr 1
  ext x
  rw [List.mem_toFinset, List.mem_toFinset]
  exact h x

lemma tiling_tile_length {sp : List SearchPiece} {b : Board} {rem : List Nat}
    {T : List (Nat × List (Nat × Nat))} (hsp : SPGood sp)
    (hlt : ∀ i ∈ rem, i < sp.length) (htil : IsTilingOf sp b rem T) :
    ∀ e ∈ T, e.2.length = (sp.getD e.1 defaultSearchPiece).NumBalls := by
  obtain ⟨hperm, htrans, _, _⟩ := htil
  intro e he
  obtain ⟨o, ho, htr⟩ := htrans e he
  obtain ⟨dR, dC, hlen, _⟩ := htr
  have her : e.1 ∈ rem := hperm.subset (List.mem_map_of_mem Prod.fst he)
  have hspe := hsp (sp.getD e.1 defaultSearchPiece)
    (by rw [getD_eq_getElem_of_lt _ _ (hlt _ her)]; exact List.getElem_mem _)
  rw [hlen, (hspe.1 o ho).1]




/-- C1: for an input board whose cells outside the logical extents are
`Invalid` and whose `Empty`-cell count equals the summed ball counts
of the pieces the setup scan leaves remaining, the shipped `Solve`
returns (with no statistics) exactly the boards in which every
`Empty` cell of the input is covered by exactly one placement of each
remaining piece in one of its generated orientations, and no returned
board has an `Empty` cell. -/
theorem C1_solve_exact (Pieces : List PieceDef) (input : Board)
    (NumRows NumCols : Nat) (junk : Int × Int)
    (hP : ∀ D ∈ Pieces, 1 ≤ ballCount D) (hplen : Pieces.length = 12)
    (hwfI : BoardWF input) (hnr : NumRows ≤ 16) (hnc : NumCols ≤ 16)
    (hinv : ∀ r : Nat, r < 16 → ∀ c : Nat, c < 16 → NumRows ≤ r ∨ NumCols ≤ c →
      getCell input r c = cellInvalid)
    (hcnt : (emptyCellsOf input).length =
      ((remainingPieces (initialFlags input NumRows NumCols)).map
        fun i => ((Initialize Pieces).getD i defaultSearchPiece).NumBalls).sum) :
    ∃ sols : List Board,
      Solve shipped (Initialize Pieces) input NumRows NumCols junk =
        some (sols, none) ∧
      (∀ B, B ∈ sols ↔ IsSolutionBoard (Initialize Pieces) input
        (remainingPieces (initialFlags input NumRows NumCols)) B) ∧
      (∀ B ∈ sols, ∀ r c : Nat, r < 16 → c < 16 → getCell B r c ≠ cellEmpty) := by
  have hsp : SPGood (Initialize Pieces) := SPGood_Initialize hP
  have hsl : (Initialize Pieces).length = 12 := by
    unfold Initialize
    rw [List.length_map, hplen]
  have hout : ∀ r c : Nat, r < 16 → c < 16 → NumRows ≤ r ∨ NumCols ≤ c →
      getCell input r c ≠ cellEmpty := by
    intro r c hr hc hrc
    rw [hinv r hr c hc hrc]
    unfold cellInvalid cellEmpty
    omega
  have hsome : (SolveFull false (Initialize Pieces) input NumRows NumCols junk).isSome
      = true :=
    solveAux_no_assert_isSome (Initialize Pieces) (emptyCellsOf input) NumRows NumCols
      junk _ _ (le_refl _) _ _ _
  obtain ⟨out, hout2⟩ := Option.isSome_iff_exists.mp hsome
  have hwf0 : StateWF (Initialize Pieces) input (initialState input NumRows NumCols) :=
    stateWF_initial hwfI hcnt
  have hsoliff : ∀ B, B ∈ out.1 ↔ IsSolutionBoard (Initialize Pieces) input
      (remainingPieces (initialFlags input NumRows NumCols)) B := by
    intro B
    rw [SolveFull_sols_iff hout2 B]
    constructor
    · intro hR
      obtain ⟨T, htil, hBp⟩ := reaches_sound hsp hnr hnc hR hwf0
      rw [initialState_board] at hBp
      refine ⟨T, ?_, hBp⟩
      rw [← initialState_board input NumRows NumCols, ← initialState_flags]
      exact htil
    · rintro ⟨T, htil, hBp⟩
      refine reaches_complete hsp hsl hnr hnc hout
        (remainingPieces (initialFlags input NumRows NumCols)).length
        (initialState input NumRows NumCols) T B hwf0 ?_ ?_ ?_ ?_
      · rw [initialState_flags]
      · exact remainingPieces_initial_pos input NumRows NumCols
      · rw [initialState_flags, initialState_board]
        exact htil
      · rw [initialState_board]
        exact hBp
  refine ⟨out.1, ?_, hsoliff, ?_⟩
  · show (SolveFull (assertEnabled shipped) (Initialize Pieces) input NumRows NumCols
        junk).map
      (fun o => (o.1, if statsEnabled shipped then some o.2.1 else none)) =
      some (out.1, none)
    have hae : assertEnabled shipped = false := rfl
    rw [hae, hout2]
    rfl
  · intro B hB r c hr hc
    obtain ⟨T, htil, hBp⟩ := (hsoliff B).mp hB
    rw [hBp]
    exact paint_no_empty hwfI htil r c hr hc




set_option maxRecDepth 40000 in
/-- Witness for C1: the one-row inventory/board instance; its four
solutions are exactly the solution boards. -/
theorem C1_solve_exact_witness :
    (∀ D ∈ pieceGap :: List.replicate 11 pieceSingle, 1 ≤ ballCount D) ∧
    ∃ sols : List Board,
      Solve shipped invMixed boardRow13 1 13 (0, 0) = some (sols, none) ∧
      (∀ B, B ∈ sols ↔ IsSolutionBoard invMixed boardRow13
        (remainingPieces (initialFlags boardRow13 1 13)) B) ∧
      (∀ B ∈ sols, ∀ r c : Nat, r < 16 → c < 16 → getCell B r c ≠ cellEmpty) :=
  have hP : ∀ D ∈ pieceGap :: List.replicate 11 pieceSingle, 1 ≤ ballCount D := by
    intro D hD
    rcases List.mem_cons.mp hD with rfl | hD2
    · decide
    · rw [List.eq_of_mem_replicate hD2]
      decide
  ⟨hP,
   C1_solve_exact (pieceGap :: List.replicate 11 pieceSingle) boardRow13 1 13 (0, 0)
     hP rfl (by decide) (by decide) (by decide) (by decide) (by decide)⟩




/-- C5: in every returned solution, each cell of the logical extents
either keeps its non-`Empty` input value and lies in no placement, or
was `Empty` on the input and lies in exactly one placement; and the
summed ball counts of the placed pieces equal the input's
`Empty`-cell count. -/
theorem C5_no_overlap (Pieces : List PieceDef) (input : Board)
    (NumRows NumCols : Nat) (junk : Int × Int) (sols : List Board)
    (stats : Option Stats) (B : Board)
    (hP : ∀ D ∈ Pieces, 1 ≤ ballCount D) (hplen : Pieces.length = 12)
    (hwfI : BoardWF input) (hnr : NumRows ≤ 16) (hnc : NumCols ≤ 16)
    (hcnt : (emptyCellsOf input).length =
      ((remainingPieces (initialFlags input NumRows NumCols)).map
        fun i => ((Initialize Pieces).getD i defaultSearchPiece).NumBalls).sum)
    (hsolve : Solve shipped (Initialize Pieces) input NumRows NumCols junk =
      some (sols, stats))
    (hB : B ∈ sols) :
    ∃ T, IsTilingOf (Initialize Pieces) input
        (remainingPieces (initialFlags input NumRows NumCols)) T ∧
      B = paint input T ∧
      (∀ r c : Nat, r < NumRows → c < NumCols →
        (getCell input r c ≠ cellEmpty ∧ getCell B r c = getCell input r c ∧
          (T.filter fun e => decide ((r, c) ∈ e.2)).length = 0) ∨
        (getCell input r c = cellEmpty ∧
          (T.filter fun e => decide ((r, c) ∈ e.2)).length = 1)) ∧
      (T.map fun e => ((Initialize Pieces).getD e.1 defaultSearchPiece).NumBalls).sum =
        (emptyCellsOf input).length := by
  have hsp : SPGood (Initialize Pieces) := SPGood_Initialize hP
  have hsl : (Initialize Pieces).length = 12 := by
    unfold Initialize
    rw [List.length_map, hplen]
  unfold Solve at hsolve
  rw [show assertEnabled shipped = false from rfl] at hsolve
  obtain ⟨out, hout2, hfo⟩ := Option.map_eq_some'.mp hsolve
  have hsols : out.1 = sols := congrArg Prod.fst hfo
  have hwf0 : StateWF (Initialize Pieces) input (initialState input NumRows NumCols) :=
    stateWF_initial hwfI hcnt
  have hR : Reaches (Initialize Pieces) (emptyCellsOf input) NumRows NumCols junk
      (initialState input NumRows NumCols) B :=
    (SolveFull_sols_iff hout2 B).mp (by rw [hsols]; exact hB)
  obtain ⟨T, htil0, hBp0⟩ := reaches_sound hsp hnr hnc hR hwf0
  have htil : IsTilingOf (Initialize Pieces) input
      (remainingPieces (initialFlags input NumRows NumCols)) T := by
    rw [← initialState_board input NumRows NumCols, ← initialState_flags]
    exact htil0
  have hBp : B = paint input T := by
    rw [← initialState_board input NumRows NumCols]
    exact hBp0
  have hbnds := tiling_bounds htil
  have hlt : ∀ i ∈ remainingPieces (initialFlags input NumRows NumCols),
      i < (Initialize Pieces).length := by
    intro i hi
    have := mem_remainingPieces_lt hi
    omega
  have htl := tiling_tile_length hsp hlt htil
  obtain ⟨hperm, htrans, hnd, hcov⟩ := htil
  refine ⟨T, ⟨hperm, htrans, hnd, hcov⟩, hBp, ?_, ?_⟩
  · intro r c hrn hcn
    have hr : r < 16 := by omega
    have hc : c < 16 := by omega
    have hcount := count_tiles_of_nodup T hnd (r, c)
    by_cases he : getCell input r c = cellEmpty
    · right
      have hmem : (r, c) ∈ T.flatMap Prod.snd :=
        (hcov (r, c)).mpr (empty_mem_emptyCellsOf hwfI he)
      rw [hcount, if_pos hmem]
      exact ⟨he, rfl⟩
    · left
      have hmem : (r, c) ∉ T.flatMap Prod.snd := fun h =>
        he (mem_emptyCellsOf.mp ((hcov _).mp h)).2
      refine ⟨he, ?_, by rw [hcount, if_neg hmem]⟩
      rw [hBp]
      exact getCell_paint_not_mem T input hwfI hbnds r c hmem
  · have h1 : (T.map fun e =>
        ((Initialize Pieces).getD e.1 defaultSearchPiece).NumBalls).sum =
        (T.map fun e => e.2.length).sum := by
      rw [List.map_congr_left fun e he => (htl e he).symm]
    have h2 : (T.flatMap Prod.snd).length = (T.map fun e => e.2.length).sum := by
      rw [List.length_flatMap]
      rfl
    rw [h1, ← h2]
    exact nodup_same_mem_length_eq hnd (emptyCellsOf_nodup input) hcov



set_option maxRecDepth 100000 in
/-- Witness for C5 at the one-row instance: the first of its four
returned solutions is a painted tiling with the stated per-cell and
count properties. -/
theorem C5_no_overlap_witness :
    ∃ T, IsTilingOf invMixed boardRow13
        (remainingPieces (initialFlags boardRow13 1 13)) T ∧
      boardOfRows [[3, 4, 5, 6, 7, 8, 9, 10, 11, 5, 3, 4, 3]] = paint boardRow13 T ∧
      (∀ r c : Nat, r < 1 → c < 13 →
        (getCell boardRow13 r c ≠ cellEmpty ∧
          getCell (boardOfRows [[3, 4, 5, 6, 7, 8, 9, 10, 11, 5, 3, 4, 3]]) r c =
            getCell boardRow13 r c ∧
          (T.filter fun e => decide ((r, c) ∈ e.2)).length = 0) ∨
        (getCell boardRow13 r c = cellEmpty ∧
          (T.filter fun e => decide ((r, c) ∈ e.2)).length = 1)) ∧
      (T.map fun e => (invMixed.getD e.1 defaultSearchPiece).NumBalls).sum =
        (emptyCellsOf boardRow13).length :=
  have hP : ∀ D ∈ pieceGap :: List.replicate 11 pieceSingle, 1 ≤ ballCount D := by
    intro D hD
    rcases List.mem_cons.mp hD with rfl | hD2
    · decide
    · rw [List.eq_of_mem_replicate hD2]
      decide
  C5_no_overlap (pieceGap :: List.replicate 11 pieceSingle) boardRow13 1 13 (0, 0)
    [boardOfRows [[3, 4, 5, 6, 7, 8, 9, 10, 11, 5, 3, 4, 3]],
     boardOfRows [[3, 4, 5, 6, 7, 8, 9, 10, 11, 4, 3, 5, 3]],
     boardOfRows [[3, 4, 5, 6, 7, 8, 9, 10, 11, 3, 5, 3, 4]],
     boardOfRows [[3, 4, 5, 6, 7, 8, 9, 10, 11, 3, 4, 3, 5]]] none
    (boardOfRows [[3, 4, 5, 6, 7, 8, 9, 10, 11, 5, 3, 4, 3]])
    hP rfl (by decide) (by decide) (by decide) (by decide) (by decide)
    (List.mem_cons_self _ _)


end Quadrillion
